import Mathlib

/-!
Verification of the YOLO decode pipeline of `myolo/model.py`.

This file gives a shallow embedding of the post-processing core of the
repository: `_interval_overlap`, `bbox_iou`, `BoundBox` (with its
`get_label` / `get_score` accessors), `_sigmoid`, `_softmax` as it is used
at its single call site, and `batch_decode_yolo` (activation pass, box
reconstruction, per-class non-maximum suppression, final filter).

Modelling conventions:

* Numbers are taken in an arbitrary `LinearOrderedField` (with a
  `FloorRing` where Python's `int()` truncation occurs), so concrete
  computations can be carried out over `ℚ` while statements that depend on
  properties of the exponential are instantiated at `ℝ` with `Real.exp`.
  The exponential is an explicit parameter `exp : α → α` of every
  definition that uses it, mirroring `np.exp`.
* Lean's field division is total with `x / 0 = 0`.  Python instead raises
  `ZeroDivisionError` on `float(intersect) / union` when `union == 0`;
  places where this matters are flagged in the theorems about claim C7.
* Tensors are nested lists, innermost dimension the channel vector
  `[tx, ty, tw, th, objectness, class_0 .. class_{K-1}]`.  Out-of-range
  list reads use `getD` with a default; every concrete input considered in
  the theorems is well-formed, so defaults are never observable there.
* `np.argsort` (default kind) is modelled as a *stable* ascending
  insertion sort of the index range, the deterministic behaviour numpy
  shows on small inputs; the source then reverses it.
-/

namespace MaskYolo

/-- The `BoundBox` class of the source: corner coordinates, the objectness
confidence `c`, and the (mutable, shared) per-class score vector. -/
structure Box (α : Type) where
  xmin : α
  ymin : α
  xmax : α
  ymax : α
  c : α
  classes : List α
deriving DecidableEq, Repr

variable {α : Type} [LinearOrderedField α]

/-- Default box used for out-of-range list reads. -/
def boxD : Box α := ⟨0, 0, 0, 0, 0, []⟩

/-- Source `_interval_overlap(interval_a, interval_b)` with
`interval_a = [x1, x2]`, `interval_b = [x3, x4]`, branch for branch. -/
def _interval_overlap (x1 x2 x3 x4 : α) : α :=
  if x3 < x1 then
    if x4 < x1 then 0 else min x2 x4 - x1
  else
    if x2 < x3 then 0 else min x2 x4 - x3

/-- Intersection area computed by `bbox_iou`: the product of the two
per-axis interval overlaps. -/
def intersectArea (box1 box2 : Box α) : α :=
  _interval_overlap box1.xmin box1.xmax box2.xmin box2.xmax *
    _interval_overlap box1.ymin box1.ymax box2.ymin box2.ymax

/-- Union area computed by `bbox_iou`: `w1*h1 + w2*h2 - intersect`. -/
def unionArea (box1 box2 : Box α) : α :=
  (box1.xmax - box1.xmin) * (box1.ymax - box1.ymin) +
    (box2.xmax - box2.xmin) * (box2.ymax - box2.ymin) -
      intersectArea box1 box2

/-- Source `bbox_iou(box1, box2) = float(intersect) / union`.  In Lean,
division by a zero union yields `0`; Python raises `ZeroDivisionError`
there (see the C7 theorems). -/
def bbox_iou (box1 box2 : Box α) : α :=
  intersectArea box1 box2 / unionArea box1 box2

/-- Class score of a box at index `c` (`box.classes[c]`). -/
def classAt (b : Box α) (c : ℕ) : α := b.classes.getD c 0

/-- Source `get_label`: `np.argmax(self.classes)`, the first index of the
maximum entry (the `label == -1` lazy cache is transparent here because the
source computes it only once, after suppression). -/
def get_label (b : Box α) : ℕ :=
  (List.range b.classes.length).foldl
    (fun best i => if b.classes.getD best 0 < b.classes.getD i 0 then i else best) 0

/-- Source `get_score`: `self.classes[self.get_label()]`. -/
def get_score (b : Box α) : α := b.classes.getD (get_label b) 0

/-- Model of `np.argsort(scores)` (ascending, stable). -/
def argsort (scores : List α) : List ℕ :=
  List.insertionSort (fun i j => scores.getD i 0 ≤ scores.getD j 0)
    (List.range scores.length)

/-- Source `list(reversed(np.argsort([...])))`: the suppression ordering. -/
def sortedIndicesDesc (scores : List α) : List ℕ := (argsort scores).reverse

/-- Source `boxes[index_j].classes[c] = 0`, the single mutating statement of
the suppression pass. -/
def zeroClass (boxes : List (Box α)) (j c : ℕ) : List (Box α) :=
  boxes.set j
    (let bj := boxes.getD j boxD
     { bj with classes := bj.classes.set c 0 })

/-- Inner suppression loop: for each later index `j`, zero its class-`c`
score when `bbox_iou(boxes[index_i], boxes[index_j]) >= nms_thre`. -/
def nmsInner (nms_thre : α) (c : ℕ) (bi : Box α) :
    List ℕ → List (Box α) → List (Box α)
  | [], boxes => boxes
  | j :: js, boxes =>
      nmsInner nms_thre c bi js
        (if nms_thre ≤ bbox_iou bi (boxes.getD j boxD) then
          zeroClass boxes j c
        else boxes)

/-- Outer suppression loop over the sorted index list: an index whose
class-`c` score is `0` is skipped as an anchor (`continue`), otherwise it
suppresses every later index with too much overlap. -/
def nmsOuter (nms_thre : α) (c : ℕ) :
    List ℕ → List (Box α) → List (Box α)
  | [], boxes => boxes
  | i :: rest, boxes =>
      nmsOuter nms_thre c rest
        (if classAt (boxes.getD i boxD) c = 0 then boxes
        else nmsInner nms_thre c (boxes.getD i boxD) rest boxes)

/-- One per-class suppression pass of `batch_decode_yolo` (lines 703-716). -/
def nmsClass (nms_thre : α) (c : ℕ) (boxes : List (Box α)) : List (Box α) :=
  nmsOuter nms_thre c (sortedIndicesDesc (boxes.map (fun b => classAt b c))) boxes

/-- The whole suppression phase: passes for classes `0, 1, ..., nb_class-1`
in order. -/
def nonMaxSuppress (nms_thre : α) (nb_class : ℕ) (boxes : List (Box α)) :
    List (Box α) :=
  (List.range nb_class).foldl (fun bs c => nmsClass nms_thre c bs) boxes

/-- Source `_sigmoid(x) = 1. / (1. + np.exp(-x))`, with the exponential an
explicit parameter. -/
def _sigmoid (exp : α → α) (x : α) : α := 1 / (1 + exp (-x))

/-- Maximum of a list, `np.max` style (the default on an empty list is
never reached in the modelled inputs). -/
def listMax : List α → α
  | [] => 0
  | x :: xs => xs.foldl max x

/-- Minimum of a list, `np.min` style. -/
def listMin : List α → α
  | [] => 0
  | x :: xs => xs.foldl min x

/-- A 4-d tensor `[gridH, gridW, numAnchors, 5+numClasses]` as nested
lists, innermost the channel vector. -/
abbrev Tensor4 (α : Type) := List (List (List (List α)))

/-- All class-channel entries (`yolo_out[..., 5:]`) of a 4-d tensor, the
array over which `_softmax` computes its `np.max` and `np.min`. -/
def classEntries (t : Tensor4 α) : List α :=
  t.flatMap fun plane => plane.flatMap fun cell => cell.flatMap fun vec => vec.drop 5

/-- The stabilisation `_softmax` applies before `np.exp` (lines 731-734):
`x = x - np.max(x)` and, when `np.min(x) < t`, `x = x / np.min(x) * t`.
Both the maximum and the minimum are taken over the WHOLE array passed to
`_softmax` — at the call site that is the entire class tensor across all
cells and anchors, not one per-candidate vector (see claim C5). -/
def stabilize (tsm : α) (cls_all : List α) : α → α :=
  let M := listMax cls_all
  let m := listMin (cls_all.map (fun v => v - M))
  fun v => if m < tsm then (v - M) / m * tsm else (v - M)

/-- The activation pass of `batch_decode_yolo` (lines 671-673) on one
channel vector: channel 4 becomes `sigmoid`, channels 5.. become
`sigmoid(ch4) * softmax(logits)` where the softmax normalises per vector
(`e_x.sum(axis=-1)`) after the globally stabilised `np.exp`, and finally a
class score is kept only when it exceeds `obj_thre`
(`x *= x > obj_thre` zeroes every entry not strictly above the threshold). -/
def activateVec (exp stab : α → α) (obj_thre : α) (vec : List α) : List α :=
  let conf := _sigmoid exp (vec.getD 4 0)
  let es := (vec.drop 5).map fun v => exp (stab v)
  let s := es.sum
  vec.take 4 ++ conf :: es.map fun ev =>
    let p := conf * (ev / s)
    if obj_thre < p then p else 0

/-- The whole activation pass on a 4-d (single image) tensor. -/
def activate (exp : α → α) (tsm obj_thre : α) (t : Tensor4 α) : Tensor4 α :=
  let stab := stabilize tsm (classEntries t)
  t.map fun plane => plane.map fun cell => cell.map (activateVec exp stab obj_thre)

/-- Python's `int()` conversion: truncation toward zero. -/
def truncInt [FloorRing α] (x : α) : ℤ :=
  if x < 0 then ⌈x⌉ else ⌊x⌋

/-- Box reconstruction for one `(row, col, b)` triple (lines 683-698 of the
source): grid-relative decode, conversion to corner form, scaling to
feature-map pixels with `int()` truncation and the source's clipping
(`xmin` and `ymax` are clipped against `fm_height`, `xmax` against
`fm_width`, exactly as written). -/
def decodeTriple [FloorRing α] (exp : α → α) (anchors : List α)
    (fm_height fm_width : ℤ) (grid_h grid_w : ℕ) (row col b : ℕ)
    (vec : List α) : Box α :=
  let x := ((col : α) + _sigmoid exp (vec.getD 0 0)) / (grid_w : α)
  let y := ((row : α) + _sigmoid exp (vec.getD 1 0)) / (grid_h : α)
  let w := anchors.getD (2 * b) 0 * exp (vec.getD 2 0) / (grid_w : α)
  let h := anchors.getD (2 * b + 1) 0 * exp (vec.getD 3 0) / (grid_h : α)
  let xmin := min (truncInt ((x - w / 2) * (fm_width : α))) fm_height
  let ymin := min (truncInt ((y - h / 2) * (fm_height : α))) fm_height
  let xmax := min (truncInt ((x + w / 2) * (fm_width : α))) fm_width
  let ymax := min (truncInt ((y + h / 2) * (fm_height : α))) fm_height
  ⟨(xmin : α), (ymin : α), (xmax : α), (ymax : α), vec.getD 4 0, vec.drop 5⟩

/-- Candidate construction (lines 675-700) over the activated tensor,
keeping the `(row, col, b)` origin of each box so that the write-through of
the suppression pass into the caller's array (the `classes` numpy views)
can be expressed.  A triple yields a candidate iff the sum of its class
scores is positive. -/
def buildTriples [FloorRing α] (exp : α → α) (anchors : List α)
    (fm_height fm_width : ℤ) (t : Tensor4 α) : List ((ℕ × ℕ × ℕ) × Box α) :=
  let grid_h := t.length
  let grid_w := (t.getD 0 []).length
  let nb_box := ((t.getD 0 []).getD 0 []).length
  (List.range grid_h).flatMap fun row =>
    (List.range grid_w).flatMap fun col =>
      (List.range nb_box).flatMap fun b =>
        let vec := ((t.getD row []).getD col []).getD b []
        if 0 < (vec.drop 5).sum then
          [((row, col, b),
            decodeTriple exp anchors fm_height fm_width grid_h grid_w row col b vec)]
        else []

/-- The candidate boxes themselves (what the `boxes` list of the source
holds). -/
def buildBoxes [FloorRing α] (exp : α → α) (anchors : List α)
    (fm_height fm_width : ℤ) (t : Tensor4 α) : List (Box α) :=
  (buildTriples exp anchors fm_height fm_width t).map Prod.snd

/-- Overwrite the anchor vector at position `(r, c, b)` of a tensor. -/
def set3 (t : Tensor4 α) (r c b : ℕ) (vec : List α) : Tensor4 α :=
  t.set r ((t.getD r []).set c (((t.getD r []).getD c []).set b vec))

/-- The state of the caller's array after the suppression pass: each box's
`classes` is a numpy view of channels 5.. of its origin cell, so the
post-suppression scores are written through into the tensor. -/
def writeBack : List (ℕ × ℕ × ℕ) → List (Box α) → Tensor4 α → Tensor4 α
  | [], _, t => t
  | _ :: _, [], t => t
  | (r, c, b) :: os, bx :: bs, t =>
      writeBack os bs
        (set3 t r c b (((((t.getD r []).getD c []).getD b []).take 5) ++ bx.classes))

/-- The decode pipeline of `batch_decode_yolo` applied to one image
(4-d tensor): activation, candidate construction, per-class suppression,
final filter `get_score() > obj_thre`.  The second component is the state
of the caller's tensor after the call: the function mutates `yolo_out` in
place (lines 671-673) and the suppression writes through the `classes`
views (line 716).  The source reads its loop bounds from `shape[:4]` of a
batched 5-d input; this definition is the semantics of the loop body for
one image, which is what the specification describes (see claim C1 and
`batch_decode_yolo` below for the batched behaviour). -/
def decode_image_full [FloorRing α] (exp : α → α) (t : Tensor4 α)
    (anchors : List α) (nb_class : ℕ) (fm_height fm_width : ℤ)
    (obj_thre nms_thre : α) : List (Box α) × Tensor4 α :=
  let t1 := activate exp (-100) obj_thre t
  let triples := buildTriples exp anchors fm_height fm_width t1
  let boxes := nonMaxSuppress nms_thre nb_class (triples.map Prod.snd)
  (boxes.filter fun b => obj_thre < get_score b,
    writeBack (triples.map Prod.fst) boxes t1)

/-- The box list returned by decoding one image. -/
def decode_image [FloorRing α] (exp : α → α) (t : Tensor4 α)
    (anchors : List α) (nb_class : ℕ) (fm_height fm_width : ℤ)
    (obj_thre nms_thre : α) : List (Box α) :=
  (decode_image_full exp t anchors nb_class fm_height fm_width obj_thre nms_thre).1

/-- A batched 5-d tensor `[batch, gridH, gridW, numAnchors, 5+numClasses]`,
the shape the source's docstring declares. -/
abbrev Tensor5 (α : Type) := List (Tensor4 α)

/-- Class-channel entries of a batched tensor. -/
def classEntries5 (t : Tensor5 α) : List α := t.flatMap classEntries

/-- The activation pass on a batched tensor: lines 671-673 operate
elementwise over the whole array (with the softmax stabilisation global
over every class entry of every image). -/
def activate5 (exp : α → α) (tsm obj_thre : α) (t : Tensor5 α) : Tensor5 α :=
  let stab := stabilize tsm (classEntries5 t)
  t.map fun t4 =>
    t4.map fun plane => plane.map fun cell => cell.map (activateVec exp stab obj_thre)

/-- Source `batch_decode_yolo` on its documented 5-d input.  The source
unpacks `batch, grid_h, grid_w, nb_box = yolo_out.shape[:4]` but the loop
`for row / for col / for b` then indexes `yolo_out[row, col, b, 5:]`, so
`row` selects along the BATCH axis, `col` along the grid-row axis and `b`
along the grid-column axis, and `5:` slices the ANCHOR axis: with at most
5 anchors the class slice is empty, its sum is `0`, and no candidate is
ever produced.  The batch axis is never iterated.  (When `grid_h` exceeds
the batch size the source raises `IndexError`, modelled by the `getD`
default; when the guard did hold the source would next unpack a 2-d slice
into four scalars and raise `TypeError`, so the taken branch produces no
candidate — it is unreachable for every anchor count at most 5.) -/
def batch_decode_yolo [FloorRing α] (exp : α → α) (t : Tensor5 α)
    (anchors : List α) (nb_class : ℕ) (fm_height fm_width : ℤ)
    (obj_thre nms_thre : α) : List (Box α) :=
  let grid_h := (t.getD 0 []).length
  let grid_w := ((t.getD 0 []).getD 0 []).length
  let nb_box := (((t.getD 0 []).getD 0 []).getD 0 []).length
  let t1 := activate5 exp (-100) obj_thre t
  let boxes : List (Box α) :=
    (List.range grid_h).flatMap fun row =>
      (List.range grid_w).flatMap fun col =>
        (List.range nb_box).flatMap fun b =>
          let mat := (((t1.getD row []).getD col []).getD b []).drop 5
          if 0 < (mat.map List.sum).sum then [] else []
  let boxes := nonMaxSuppress nms_thre nb_class boxes
  boxes.filter fun b => obj_thre < get_score b

/-! ## Concrete evaluations used by several claims

The input `[[[[0,0,0,0,0,0]]]]` is a `1×1×1` grid with one anchor and one
class, every raw channel zero; with anchors `(1,1)` and a `4×4` feature map
it decodes to the single box `(0,0,4,4)` with confidence and class score
`sigmoid 0 = 1/2`. -/

lemma eval_activate_z6 :
    activate Real.exp (-100) (3/10) [[[[0,0,0,0,0,0]]]] =
      [[[[(0:ℝ),0,0,0,1/2,1/2]]]] := by
  norm_num [activate, classEntries, stabilize, activateVec, _sigmoid, listMax, listMin,
    Real.exp_zero]

lemma eval_build_z6 :
    buildTriples Real.exp [1,1] 4 4 [[[[(0:ℝ),0,0,0,1/2,1/2]]]] =
      [((0,0,0), ⟨0, 0, 4, 4, 1/2, [1/2]⟩)] := by
  rw [buildTriples]
  norm_num [List.range_succ]
  rw [decodeTriple]
  norm_num [truncInt, _sigmoid, Real.exp_zero]

lemma eval_nms_single (nms_thre : ℝ) :
    nonMaxSuppress nms_thre 1 [(⟨0, 0, 4, 4, 1/2, [1/2]⟩ : Box ℝ)] =
      [⟨0, 0, 4, 4, 1/2, [1/2]⟩] := by
  norm_num [nonMaxSuppress, nmsClass, sortedIndicesDesc, argsort, List.insertionSort,
    List.orderedInsert, List.range_succ, nmsOuter, nmsInner, classAt, boxD]

lemma eval_decode_z6 (nms_thre : ℝ) :
    decode_image Real.exp [[[[0,0,0,0,0,0]]]] [1,1] 1 4 4 (3/10) nms_thre =
      [⟨0, 0, 4, 4, 1/2, [1/2]⟩] := by
  rw [decode_image, decode_image_full, eval_activate_z6, eval_build_z6]
  norm_num [eval_nms_single, get_score, get_label, List.range_succ]

lemma eval_decode_full_z6 (nms_thre : ℝ) :
    decode_image_full Real.exp [[[[0,0,0,0,0,0]]]] [1,1] 1 4 4 (3/10) nms_thre =
      ([⟨0, 0, 4, 4, 1/2, [1/2]⟩], [[[[(0:ℝ),0,0,0,1/2,1/2]]]]) := by
  rw [decode_image_full, eval_activate_z6, eval_build_z6]
  norm_num [eval_nms_single, get_score, get_label, List.range_succ, writeBack, set3]

lemma eval_batch_z6 :
    batch_decode_yolo Real.exp [[[[[0,0,0,0,0,0]]]], [[[[0,0,0,0,0,0]]]]]
      [1,1] 1 4 4 ((3:ℝ)/10) (3/10) = [] := by
  rw [batch_decode_yolo]
  norm_num [List.range_succ, nonMaxSuppress, nmsClass, sortedIndicesDesc, argsort,
    List.insertionSort, nmsOuter]

/-- Claim C1: for a batched input of shape `[batch, gridH, gridW,
numAnchors, 5+numClasses]` with `batch > 1`, `batch_decode_yolo` is claimed
to process each image independently and produce one box list per image,
each equal to the result of decoding that image alone.  The code does not:
the loop indexes the batch axis with the grid-row counter and never
iterates it, so a batch of two copies of an image whose stand-alone decode
yields one box produces a single empty list instead.  The claim is the
spec's explicitly flagged correction of defective code (design note §9),
so the code is the bug; this theorem evaluates both sides at the failing
input. -/
theorem C1_batch_dimension_ignored :
    batch_decode_yolo Real.exp [[[[[0,0,0,0,0,0]]]], [[[[0,0,0,0,0,0]]]]]
        [1,1] 1 4 4 ((3:ℝ)/10) (3/10) = [] ∧
      decode_image Real.exp [[[[0,0,0,0,0,0]]]] [1,1] 1 4 4 ((3:ℝ)/10) (3/10) =
        [⟨0, 0, 4, 4, 1/2, [1/2]⟩] ∧
      ([] : List (Box ℝ)) ≠ [⟨0, 0, 4, 4, 1/2, [1/2]⟩] := by
  refine ⟨eval_batch_z6, eval_decode_z6 (3/10), ?_⟩
  simp

/-! ## Claim C9: symmetry of `bbox_iou` -/

lemma interval_overlap_symm (x1 x2 x3 x4 : α) (h1 : x1 ≤ x2) (h2 : x3 ≤ x4) :
    _interval_overlap x1 x2 x3 x4 = _interval_overlap x3 x4 x1 x2 := by
  unfold _interval_overlap
  have hm : min x2 x4 = min x4 x2 := min_comm x2 x4
  split_ifs <;> linarith [min_le_left x2 x4, min_le_right x2 x4]

/-- Claim C9: for boxes with well-formed coordinates (`xmin ≤ xmax`,
`ymin ≤ ymax`), the IoU computed by `bbox_iou` is symmetric despite the
asymmetric branch structure of `_interval_overlap`. -/
theorem C9_bbox_iou_symm (a b : Box α) (hax : a.xmin ≤ a.xmax)
    (hay : a.ymin ≤ a.ymax) (hbx : b.xmin ≤ b.xmax) (hby : b.ymin ≤ b.ymax) :
    bbox_iou a b = bbox_iou b a := by
  have hi : intersectArea a b = intersectArea b a := by
    unfold intersectArea
    rw [interval_overlap_symm a.xmin a.xmax b.xmin b.xmax hax hbx,
      interval_overlap_symm a.ymin a.ymax b.ymin b.ymax hay hby]
  have hu : unionArea a b = unionArea b a := by
    unfold unionArea
    rw [hi]; ring
  unfold bbox_iou
  rw [hi, hu]

/-- Witness for C9 at a concrete pair of overlapping boxes. -/
theorem C9_bbox_iou_symm_witness :
    bbox_iou (⟨0, 0, 2, 2, 1, [1]⟩ : Box ℚ) ⟨1, 1, 3, 3, 1, [1]⟩ =
      bbox_iou (⟨1, 1, 3, 3, 1, [1]⟩ : Box ℚ) ⟨0, 0, 2, 2, 1, [1]⟩ :=
  C9_bbox_iou_symm _ _ (by norm_num) (by norm_num) (by norm_num) (by norm_num)

/-! ## Claim C6: the suppression ordering and tie handling -/

/-- The ordering the spec demands: descending by score, ties keeping the
original relative order (a stable descending sort on the index range).
This definition follows the spec's words and exists only to be compared
with `sortedIndicesDesc`, the ordering the source actually computes. -/
def sortedIndicesDescSpec (scores : List α) : List ℕ :=
  List.insertionSort (fun i j => scores.getD j 0 ≤ scores.getD i 0)
    (List.range scores.length)

/-- Strict lexicographic order on indices: by score, then by index. -/
def keyLex (s : List α) (i j : ℕ) : Prop :=
  s.getD i 0 < s.getD j 0 ∨ (s.getD i 0 = s.getD j 0 ∧ i < j)

lemma keyLex_le {s : List α} {i j : ℕ} (h : keyLex s i j) : s.getD i 0 ≤ s.getD j 0 := by
  rcases h with h | ⟨h, _⟩
  · exact le_of_lt h
  · exact le_of_eq h

lemma orderedInsert_lex (s : List α) (x : ℕ) :
    ∀ m : List ℕ, m.Sorted (keyLex s) → (∀ y ∈ m, x < y) →
      (List.orderedInsert (fun i j => s.getD i 0 ≤ s.getD j 0) x m).Sorted (keyLex s)
  | [], _, _ => List.sorted_singleton x
  | b :: t, hs, hgt => by
      rw [List.orderedInsert]
      rcases List.sorted_cons.mp hs with ⟨hbt, hts⟩
      by_cases hr : s.getD x 0 ≤ s.getD b 0
      · rw [if_pos hr]
        refine List.sorted_cons.mpr ⟨?_, hs⟩
        intro y hy
        have hxy : x < y := hgt y hy
        have hkey : s.getD x 0 ≤ s.getD y 0 := by
          rcases List.mem_cons.mp hy with rfl | hyt
          · exact hr
          · exact le_trans hr (keyLex_le (hbt y hyt))
        rcases lt_or_eq_of_le hkey with h | h
        · exact Or.inl h
        · exact Or.inr ⟨h, hxy⟩
      · rw [if_neg hr]
        have hx : ∀ y ∈ t, x < y := fun y hy => hgt y (List.mem_cons_of_mem b hy)
        refine List.sorted_cons.mpr ⟨?_, orderedInsert_lex s x t hts hx⟩
        intro y hy
        have : y ∈ x :: t :=
          (List.perm_orderedInsert (fun i j => s.getD i 0 ≤ s.getD j 0) x t).mem_iff.mp hy
        rcases List.mem_cons.mp this with rfl | hyt
        · exact Or.inl (lt_of_not_le hr)
        · exact hbt y hyt

lemma insertionSort_lex (s : List α) :
    ∀ l : List ℕ, l.Pairwise (· < ·) →
      (List.insertionSort (fun i j => s.getD i 0 ≤ s.getD j 0) l).Sorted (keyLex s)
  | [], _ => List.sorted_nil
  | x :: xs, hl => by
      rw [List.insertionSort]
      rcases List.pairwise_cons.mp hl with ⟨hx, hxs⟩
      refine orderedInsert_lex s x _ (insertionSort_lex s xs hxs) ?_
      intro y hy
      exact hx y ((List.perm_insertionSort _ xs).mem_iff.mp hy)

/-- Amended claim C6: the suppression ordering produced by the source
(`list(reversed(np.argsort(scores)))`) is indeed descending by
`classScores[c]`, but candidates with equal scores appear in REVERSE
construction order (modelling `np.argsort` as a stable ascending sort;
numpy's default quicksort does not even guarantee stability), so tied
candidates do not retain their original relative order. -/
theorem C6_order_descending_ties_reversed (s : List α) :
    (sortedIndicesDesc s).Pairwise
      (fun i j => s.getD j 0 < s.getD i 0 ∨ (s.getD j 0 = s.getD i 0 ∧ j < i)) := by
  unfold sortedIndicesDesc
  rw [List.pairwise_reverse]
  exact insertionSort_lex s (List.range s.length) (List.pairwise_lt_range s.length)

/-- Counterexample to claim C6 as stated: two identical candidates tied at
score `1/2`.  The source's ordering is `[1, 0]` (ties reversed) while the
spec's stable ordering is `[0, 1]`; running the suppression pass with the
source's ordering zeroes the FIRST box, running it with the spec's stable
ordering zeroes the second, and the two outcomes differ, so the ordering
is not stable and the result is not the spec-deterministic one. -/
theorem C6_counterexample :
    sortedIndicesDesc ((1:ℝ)/2 :: 1/2 :: []) = [1, 0] ∧
      sortedIndicesDescSpec ((1:ℝ)/2 :: 1/2 :: []) = [0, 1] ∧
      nmsClass ((3:ℝ)/10) 0 (⟨0, 0, 4, 4, 1/2, [1/2]⟩ :: ⟨0, 0, 4, 4, 1/2, [1/2]⟩ :: []) =
        ⟨0, 0, 4, 4, 1/2, [0]⟩ :: ⟨0, 0, 4, 4, 1/2, [1/2]⟩ :: [] ∧
      nmsOuter ((3:ℝ)/10) 0 (sortedIndicesDescSpec ((1:ℝ)/2 :: 1/2 :: []))
          (⟨0, 0, 4, 4, 1/2, [1/2]⟩ :: ⟨0, 0, 4, 4, 1/2, [1/2]⟩ :: []) =
        ⟨0, 0, 4, 4, 1/2, [1/2]⟩ :: ⟨0, 0, 4, 4, 1/2, [0]⟩ :: [] ∧
      (⟨0, 0, 4, 4, 1/2, [0]⟩ :: ⟨0, 0, 4, 4, 1/2, [1/2]⟩ :: [] : List (Box ℝ)) ≠
        ⟨0, 0, 4, 4, 1/2, [1/2]⟩ :: ⟨0, 0, 4, 4, 1/2, [0]⟩ :: [] := by
  refine ⟨?_, ?_, ?_, ?_, ?_⟩
  · norm_num [sortedIndicesDesc, argsort, List.insertionSort, List.orderedInsert,
      List.range_succ]
  · norm_num [sortedIndicesDescSpec, List.insertionSort, List.orderedInsert,
      List.range_succ]
  · norm_num [nmsClass, sortedIndicesDesc, argsort, List.insertionSort,
      List.orderedInsert, List.range_succ, nmsOuter, nmsInner, classAt, boxD, zeroClass,
      bbox_iou, intersectArea, unionArea, _interval_overlap]
  · norm_num [sortedIndicesDescSpec, List.insertionSort, List.orderedInsert,
      List.range_succ, nmsOuter, nmsInner, classAt, boxD, zeroClass,
      bbox_iou, intersectArea, unionArea, _interval_overlap]
  · simp

/-! ## Claim C2: the post-suppression overlap invariant

The suppression pass only ever zeroes single class-score entries; it never
moves boxes or changes their geometry.  The lemmas below make that precise
and culminate in the invariant: two boxes that both survive a class with
distinct positive scores overlap by less than the suppression threshold. -/

/-- Two boxes with the same corner coordinates. -/
def sameGeom (a b : Box α) : Prop :=
  a.xmin = b.xmin ∧ a.ymin = b.ymin ∧ a.xmax = b.xmax ∧ a.ymax = b.ymax

lemma sameGeom_refl (a : Box α) : sameGeom a a := ⟨rfl, rfl, rfl, rfl⟩

lemma sameGeom_trans {a b c : Box α} (h1 : sameGeom a b) (h2 : sameGeom b c) :
    sameGeom a c := by
  obtain ⟨u1, u2, u3, u4⟩ := h1
  obtain ⟨v1, v2, v3, v4⟩ := h2
  exact ⟨u1.trans v1, u2.trans v2, u3.trans v3, u4.trans v4⟩

lemma bbox_iou_congr {a a' b b' : Box α} (ha : sameGeom a a') (hb : sameGeom b b') :
    bbox_iou a b = bbox_iou a' b' := by
  obtain ⟨h1, h2, h3, h4⟩ := ha
  obtain ⟨h5, h6, h7, h8⟩ := hb
  have hi : intersectArea a b = intersectArea a' b' := by
    unfold intersectArea
    rw [h1, h2, h3, h4, h5, h6, h7, h8]
  unfold bbox_iou unionArea
  rw [hi, h1, h2, h3, h4, h5, h6, h7, h8]

lemma length_zeroClass (bs : List (Box α)) (j c : ℕ) :
    (zeroClass bs j c).length = bs.length :=
  List.length_set bs j _

lemma getD_zeroClass_ne (bs : List (Box α)) {j k : ℕ} (c : ℕ) (h : k ≠ j) :
    (zeroClass bs j c).getD k boxD = bs.getD k boxD := by
  unfold zeroClass
  rw [List.getD_eq_getElem?_getD, List.getElem?_set_ne (Ne.symm h),
    ← List.getD_eq_getElem?_getD]

lemma sameGeom_getD_zeroClass (bs : List (Box α)) (j c k : ℕ) :
    sameGeom ((zeroClass bs j c).getD k boxD) (bs.getD k boxD) := by
  rcases eq_or_ne k j with rfl | hne
  · rcases lt_or_le k bs.length with hk | hk
    · unfold zeroClass
      rw [List.getD_eq_getElem?_getD, List.getElem?_set_self hk]
      exact ⟨rfl, rfl, rfl, rfl⟩
    · unfold zeroClass
      rw [List.set_eq_of_length_le hk]
      exact sameGeom_refl _
  · rw [getD_zeroClass_ne bs c hne]
    exact sameGeom_refl _

lemma classAt_getD_zeroClass_self (bs : List (Box α)) (j c : ℕ) :
    classAt ((zeroClass bs j c).getD j boxD) c = 0 := by
  rcases lt_or_le j bs.length with hj | hj
  · unfold zeroClass
    rw [List.getD_eq_getElem?_getD, List.getElem?_set_self hj]
    show ((bs.getD j boxD).classes.set c 0).getD c 0 = 0
    rcases lt_or_le c (bs.getD j boxD).classes.length with hc | hc
    · rw [List.getD_eq_getElem?_getD, List.getElem?_set_self (by simpa using hc)]
      rfl
    · rw [List.set_eq_of_length_le hc, List.getD_eq_default _ _ hc]
  · unfold zeroClass
    rw [List.set_eq_of_length_le hj, List.getD_eq_default _ _ hj]
    rfl

lemma classAt_getD_zeroClass_cases (bs : List (Box α)) (j c k c' : ℕ) :
    classAt ((zeroClass bs j c).getD k boxD) c' = classAt (bs.getD k boxD) c' ∨
      classAt ((zeroClass bs j c).getD k boxD) c' = 0 := by
  rcases eq_or_ne k j with rfl | hne
  · rcases eq_or_ne c' c with rfl | hc
    · exact Or.inr (classAt_getD_zeroClass_self bs k c')
    · rcases lt_or_le k bs.length with hk | hk
      · left
        unfold zeroClass
        rw [List.getD_eq_getElem?_getD, List.getElem?_set_self hk]
        show ((bs.getD k boxD).classes.set c 0).getD c' 0 = _
        rw [List.getD_eq_getElem?_getD, List.getElem?_set_ne (Ne.symm hc),
          ← List.getD_eq_getElem?_getD]
        rfl
      · left
        unfold zeroClass
        rw [List.set_eq_of_length_le hk]
  · left
    rw [getD_zeroClass_ne bs c hne]

lemma classAt_getD_zeroClass_of_eq_zero {bs : List (Box α)} {k c' : ℕ} (j c : ℕ)
    (h : classAt (bs.getD k boxD) c' = 0) :
    classAt ((zeroClass bs j c).getD k boxD) c' = 0 := by
  rcases classAt_getD_zeroClass_cases bs j c k c' with h' | h'
  · rw [h', h]
  · exact h'

lemma classAt_getD_zeroClass_other (bs : List (Box α)) {c c' : ℕ} (j k : ℕ)
    (hc : c' ≠ c) :
    classAt ((zeroClass bs j c).getD k boxD) c' = classAt (bs.getD k boxD) c' := by
  rcases eq_or_ne k j with rfl | hne
  · rcases lt_or_le k bs.length with hk | hk
    · unfold zeroClass
      rw [List.getD_eq_getElem?_getD, List.getElem?_set_self hk]
      show ((bs.getD k boxD).classes.set c 0).getD c' 0 = _
      rw [List.getD_eq_getElem?_getD, List.getElem?_set_ne (Ne.symm hc),
        ← List.getD_eq_getElem?_getD]
      rfl
    · unfold zeroClass
      rw [List.set_eq_of_length_le hk]
  · rw [getD_zeroClass_ne bs c hne]

lemma length_nmsInner (thre : α) (c : ℕ) (bi : Box α) :
    ∀ (js : List ℕ) (bs : List (Box α)), (nmsInner thre c bi js bs).length = bs.length
  | [], _ => rfl
  | j :: js, bs => by
      rw [nmsInner, length_nmsInner thre c bi js]
      split
      · exact length_zeroClass bs j c
      · rfl

lemma sameGeom_getD_nmsInner (thre : α) (c : ℕ) (bi : Box α) :
    ∀ (js : List ℕ) (bs : List (Box α)) (k : ℕ),
      sameGeom ((nmsInner thre c bi js bs).getD k boxD) (bs.getD k boxD)
  | [], _, _ => sameGeom_refl _
  | j :: js, bs, k => by
      rw [nmsInner]
      refine sameGeom_trans (sameGeom_getD_nmsInner thre c bi js _ k) ?_
      split
      · exact sameGeom_getD_zeroClass bs j c k
      · exact sameGeom_refl _

lemma classAt_getD_nmsInner_cases (thre : α) (c : ℕ) (bi : Box α) :
    ∀ (js : List ℕ) (bs : List (Box α)) (k c' : ℕ),
      classAt ((nmsInner thre c bi js bs).getD k boxD) c' = classAt (bs.getD k boxD) c' ∨
        classAt ((nmsInner thre c bi js bs).getD k boxD) c' = 0
  | [], _, _, _ => Or.inl rfl
  | j :: js, bs, k, c' => by
      rw [nmsInner]
      rcases classAt_getD_nmsInner_cases thre c bi js
        (if thre ≤ bbox_iou bi (bs.getD j boxD) then zeroClass bs j c else bs) k c' with h | h
      · rw [h]
        split
        · exact classAt_getD_zeroClass_cases bs j c k c'
        · exact Or.inl rfl
      · exact Or.inr h

lemma classAt_getD_nmsInner_of_eq_zero (thre : α) (c : ℕ) (bi : Box α) :
    ∀ (js : List ℕ) {bs : List (Box α)} {k c' : ℕ},
      classAt (bs.getD k boxD) c' = 0 →
      classAt ((nmsInner thre c bi js bs).getD k boxD) c' = 0
  | [], _, _, _, h => h
  | j :: js, bs, k, c', h => by
      rw [nmsInner]
      refine classAt_getD_nmsInner_of_eq_zero thre c bi js ?_
      split
      · exact classAt_getD_zeroClass_of_eq_zero j c h
      · exact h

lemma classAt_getD_nmsInner_other (thre : α) (c : ℕ) (bi : Box α) :
    ∀ (js : List ℕ) (bs : List (Box α)) (k : ℕ) {c' : ℕ}, c' ≠ c →
      classAt ((nmsInner thre c bi js bs).getD k boxD) c' = classAt (bs.getD k boxD) c'
  | [], _, _, _, _ => rfl
  | j :: js, bs, k, c', hc => by
      rw [nmsInner, classAt_getD_nmsInner_other thre c bi js _ k hc]
      split
      · exact classAt_getD_zeroClass_other bs j k hc
      · rfl

/-- The decisive zeroing fact: if `j` occurs among the later indices of an
anchored pass and the anchor overlaps `boxes[j]` by at least the threshold,
then after the inner loop the class-`c` score of `boxes[j]` is `0`. -/
lemma classAt_getD_nmsInner_zero (thre : α) (c : ℕ) (bi : Box α) :
    ∀ (js : List ℕ) (bs : List (Box α)) {j : ℕ}, j ∈ js →
      thre ≤ bbox_iou bi (bs.getD j boxD) →
      classAt ((nmsInner thre c bi js bs).getD j boxD) c = 0
  | [], _, _, hj, _ => absurd hj (List.not_mem_nil _)
  | j0 :: js, bs, j, hj, hiou => by
      rw [nmsInner]
      rcases List.mem_cons.mp hj with rfl | hjs
      · rw [if_pos hiou]
        exact classAt_getD_nmsInner_of_eq_zero thre c bi js
          (classAt_getD_zeroClass_self bs j c)
      · set bs' := if thre ≤ bbox_iou bi (bs.getD j0 boxD) then zeroClass bs j0 c else bs with hbs'
        have hgeom : sameGeom (bs'.getD j boxD) (bs.getD j boxD) := by
          rw [hbs']
          split
          · exact sameGeom_getD_zeroClass bs j0 c j
          · exact sameGeom_refl _
        have hiou' : thre ≤ bbox_iou bi (bs'.getD j boxD) := by
          rwa [bbox_iou_congr (sameGeom_refl bi) hgeom]
        exact classAt_getD_nmsInner_zero thre c bi js bs' hjs hiou'

lemma length_nmsOuter (thre : α) (c : ℕ) :
    ∀ (order : List ℕ) (bs : List (Box α)), (nmsOuter thre c order bs).length = bs.length
  | [], _ => rfl
  | i :: rest, bs => by
      rw [nmsOuter, length_nmsOuter thre c rest]
      split
      · rfl
      · exact length_nmsInner thre c _ rest bs

lemma sameGeom_getD_nmsOuter (thre : α) (c : ℕ) :
    ∀ (order : List ℕ) (bs : List (Box α)) (k : ℕ),
      sameGeom ((nmsOuter thre c order bs).getD k boxD) (bs.getD k boxD)
  | [], _, _ => sameGeom_refl _
  | i :: rest, bs, k => by
      rw [nmsOuter]
      refine sameGeom_trans (sameGeom_getD_nmsOuter thre c rest _ k) ?_
      split
      · exact sameGeom_refl _
      · exact sameGeom_getD_nmsInner thre c _ rest bs k

lemma classAt_getD_nmsOuter_cases (thre : α) (c : ℕ) :
    ∀ (order : List ℕ) (bs : List (Box α)) (k c' : ℕ),
      classAt ((nmsOuter thre c order bs).getD k boxD) c' = classAt (bs.getD k boxD) c' ∨
        classAt ((nmsOuter thre c order bs).getD k boxD) c' = 0
  | [], _, _, _ => Or.inl rfl
  | i :: rest, bs, k, c' => by
      rw [nmsOuter]
      rcases classAt_getD_nmsOuter_cases thre c rest
        (if classAt (bs.getD i boxD) c = 0 then bs
          else nmsInner thre c (bs.getD i boxD) rest bs) k c' with h | h
      · rw [h]
        split
        · exact Or.inl rfl
        · exact classAt_getD_nmsInner_cases thre c _ rest bs k c'
      · exact Or.inr h

lemma classAt_getD_nmsOuter_of_eq_zero (thre : α) (c : ℕ) :
    ∀ (order : List ℕ) {bs : List (Box α)} {k c' : ℕ},
      classAt (bs.getD k boxD) c' = 0 →
      classAt ((nmsOuter thre c order bs).getD k boxD) c' = 0
  | [], _, _, _, h => h
  | i :: rest, bs, k, c', h => by
      rw [nmsOuter]
      refine classAt_getD_nmsOuter_of_eq_zero thre c rest ?_
      split
      · exact h
      · exact classAt_getD_nmsInner_of_eq_zero thre c _ rest h

lemma classAt_getD_nmsOuter_other (thre : α) (c : ℕ) :
    ∀ (order : List ℕ) (bs : List (Box α)) (k : ℕ) {c' : ℕ}, c' ≠ c →
      classAt ((nmsOuter thre c order bs).getD k boxD) c' = classAt (bs.getD k boxD) c'
  | [], _, _, _, _ => rfl
  | i :: rest, bs, k, c', hc => by
      rw [nmsOuter, classAt_getD_nmsOuter_other thre c rest _ k hc]
      split
      · rfl
      · exact classAt_getD_nmsInner_other thre c _ rest bs k hc

/-- Key positional lemma for the suppression invariant: if index `i`
occurs before index `j` in the processed order and both survive the pass
for class `c`, then their overlap is below the threshold.  (No
distinctness of the order's entries is needed: any earlier surviving
occurrence of `i` anchors and would have zeroed `j`.) -/
lemma nmsOuter_key (thre : α) (c : ℕ) :
    ∀ (l1 l2 l3 : List ℕ) (bs : List (Box α)) (i j : ℕ),
      classAt ((nmsOuter thre c (l1 ++ (i :: (l2 ++ (j :: l3)))) bs).getD i boxD) c ≠ 0 →
      classAt ((nmsOuter thre c (l1 ++ (i :: (l2 ++ (j :: l3)))) bs).getD j boxD) c ≠ 0 →
      bbox_iou (bs.getD i boxD) (bs.getD j boxD) < thre
  | [], l2, l3, bs, i, j, hi, hj => by
      rw [List.nil_append] at hi hj
      simp only [nmsOuter] at hi hj
      by_cases h0 : classAt (bs.getD i boxD) c = 0
      · rw [if_pos h0] at hi
        exact absurd (classAt_getD_nmsOuter_of_eq_zero thre c _ h0) hi
      · rw [if_neg h0] at hj
        by_contra hlt
        have hiou : thre ≤ bbox_iou (bs.getD i boxD) (bs.getD j boxD) := le_of_not_lt hlt
        have hjz : classAt ((nmsInner thre c (bs.getD i boxD) (l2 ++ j :: l3) bs).getD j
            boxD) c = 0 :=
          classAt_getD_nmsInner_zero thre c _ (l2 ++ j :: l3) bs
            (List.mem_append_right l2 (List.mem_cons_self j l3)) hiou
        exact absurd (classAt_getD_nmsOuter_of_eq_zero thre c _ hjz) hj
  | h :: l1, l2, l3, bs, i, j, hi, hj => by
      rw [List.cons_append] at hi hj
      simp only [nmsOuter] at hi hj
      set bs' := if classAt (bs.getD h boxD) c = 0 then bs
        else nmsInner thre c (bs.getD h boxD) (l1 ++ (i :: (l2 ++ (j :: l3)))) bs with hbs'
      have hgeom : ∀ k, sameGeom (bs'.getD k boxD) (bs.getD k boxD) := by
        intro k
        rw [hbs']
        split
        · exact sameGeom_refl _
        · exact sameGeom_getD_nmsInner thre c _ _ bs k
      have := nmsOuter_key thre c l1 l2 l3 bs' i j hi hj
      rwa [bbox_iou_congr (hgeom i) (hgeom j)] at this

lemma getD_map_classAt (bs : List (Box α)) (c k : ℕ) (hk : k < bs.length) :
    (bs.map (fun b => classAt b c)).getD k 0 = classAt (bs.getD k boxD) c := by
  rw [List.getD_eq_getElem?_getD, List.getD_eq_getElem?_getD, List.getElem?_map,
    List.getElem?_eq_getElem hk]
  rfl

lemma mem_sortedIndicesDesc (s : List α) {k : ℕ} (hk : k < s.length) :
    k ∈ sortedIndicesDesc s := by
  unfold sortedIndicesDesc argsort
  rw [List.mem_reverse]
  exact (List.perm_insertionSort _ _).mem_iff.mpr (List.mem_range.mpr hk)

lemma pairwise_sortedIndicesDesc (s : List α) :
    (sortedIndicesDesc s).Pairwise (fun i j => keyLex s j i) := by
  unfold sortedIndicesDesc
  rw [List.pairwise_reverse]
  exact insertionSort_lex s (List.range s.length) (List.pairwise_lt_range s.length)

/-- The invariant after one class's suppression pass: two boxes that both
keep a nonzero class-`c` score, the second strictly below the first,
overlap by less than the threshold. -/
lemma nmsClass_invariant (thre : α) (c : ℕ) (bs : List (Box α)) {i j : ℕ}
    (hi : i < bs.length) (hj : j < bs.length)
    (hpi : classAt ((nmsClass thre c bs).getD i boxD) c ≠ 0)
    (hpj : classAt ((nmsClass thre c bs).getD j boxD) c ≠ 0)
    (hlt : classAt ((nmsClass thre c bs).getD j boxD) c <
      classAt ((nmsClass thre c bs).getD i boxD) c) :
    bbox_iou (bs.getD i boxD) (bs.getD j boxD) < thre := by
  unfold nmsClass at hpi hpj hlt
  set s := bs.map (fun b => classAt b c) with hs
  have hslen : s.length = bs.length := List.length_map bs _
  set order := sortedIndicesDesc s with horder
  have hsame : ∀ k, classAt ((nmsOuter thre c order bs).getD k boxD) c ≠ 0 →
      classAt ((nmsOuter thre c order bs).getD k boxD) c = classAt (bs.getD k boxD) c := by
    intro k hk
    rcases classAt_getD_nmsOuter_cases thre c order bs k c with h | h
    · exact h
    · exact absurd h hk
  have horig : classAt (bs.getD j boxD) c < classAt (bs.getD i boxD) c := by
    rw [← hsame i hpi, ← hsame j hpj]
    exact hlt
  have hmi : i ∈ order := mem_sortedIndicesDesc s (by rw [hslen]; exact hi)
  have hmj : j ∈ order := mem_sortedIndicesDesc s (by rw [hslen]; exact hj)
  have hki : s.getD i 0 = classAt (bs.getD i boxD) c := getD_map_classAt bs c i hi
  have hkj : s.getD j 0 = classAt (bs.getD j boxD) c := getD_map_classAt bs c j hj
  obtain ⟨u, v, huv⟩ := List.append_of_mem hmi
  have hjuv : j ∈ u ++ i :: v := huv ▸ hmj
  rcases List.mem_append.mp hjuv with hju | hjv
  · -- j before i in the ordering would force key i ≤ key j, impossible
    have hpw := pairwise_sortedIndicesDesc s
    rw [← horder, huv, List.pairwise_append] at hpw
    have hk := hpw.2.2 j hju i (List.mem_cons_self i v)
    have : s.getD i 0 ≤ s.getD j 0 := keyLex_le hk
    rw [hki, hkj] at this
    exact absurd horig (not_lt.mpr this)
  · rcases List.mem_cons.mp hjv with rfl | hjv
    · exact absurd horig (lt_irrefl _)
    · obtain ⟨v1, v2, hv⟩ := List.append_of_mem hjv
      have hord : order = u ++ (i :: (v1 ++ (j :: v2))) := by rw [huv, hv]
      rw [hord] at hpi hpj
      exact nmsOuter_key thre c u v1 v2 bs i j hpi hpj

lemma length_nmsClass (thre : α) (c : ℕ) (bs : List (Box α)) :
    (nmsClass thre c bs).length = bs.length :=
  length_nmsOuter thre c _ bs

lemma sameGeom_getD_nmsClass (thre : α) (c : ℕ) (bs : List (Box α)) (k : ℕ) :
    sameGeom ((nmsClass thre c bs).getD k boxD) (bs.getD k boxD) :=
  sameGeom_getD_nmsOuter thre c _ bs k

lemma classAt_getD_nmsClass_other (thre : α) (c : ℕ) (bs : List (Box α)) (k : ℕ)
    {c' : ℕ} (hc : c' ≠ c) :
    classAt ((nmsClass thre c bs).getD k boxD) c' = classAt (bs.getD k boxD) c' :=
  classAt_getD_nmsOuter_other thre c _ bs k hc

lemma length_nonMaxSuppress (thre : α) :
    ∀ (nb : ℕ) (bs : List (Box α)), (nonMaxSuppress thre nb bs).length = bs.length
  | 0, _ => rfl
  | n + 1, bs => by
      rw [nonMaxSuppress, List.range_succ, List.foldl_append, List.foldl_cons,
        List.foldl_nil]
      show (nmsClass thre n (nonMaxSuppress thre n bs)).length = bs.length
      rw [length_nmsClass]
      exact length_nonMaxSuppress thre n bs

lemma nonMaxSuppress_succ (thre : α) (n : ℕ) (bs : List (Box α)) :
    nonMaxSuppress thre (n + 1) bs = nmsClass thre n (nonMaxSuppress thre n bs) := by
  rw [nonMaxSuppress, nonMaxSuppress, List.range_succ, List.foldl_append,
    List.foldl_cons, List.foldl_nil]

lemma nonMaxSuppress_invariant (thre : α) :
    ∀ (nb : ℕ) (bs : List (Box α)) (c i j : ℕ), c < nb →
      i < bs.length → j < bs.length →
      classAt ((nonMaxSuppress thre nb bs).getD i boxD) c ≠ 0 →
      classAt ((nonMaxSuppress thre nb bs).getD j boxD) c ≠ 0 →
      classAt ((nonMaxSuppress thre nb bs).getD j boxD) c <
        classAt ((nonMaxSuppress thre nb bs).getD i boxD) c →
      bbox_iou ((nonMaxSuppress thre nb bs).getD i boxD)
        ((nonMaxSuppress thre nb bs).getD j boxD) < thre
  | 0, _, c, _, _, hc, _, _, _, _, _ => absurd hc (Nat.not_lt_zero c)
  | n + 1, bs, c, i, j, hc, hi, hj, hpi, hpj, hlt => by
      rw [nonMaxSuppress_succ] at hpi hpj hlt ⊢
      set mid := nonMaxSuppress thre n bs with hmid
      have hmidlen : mid.length = bs.length := length_nonMaxSuppress thre n bs
      rcases lt_or_eq_of_le (Nat.lt_succ_iff.mp hc) with hcn | rfl
      · -- pass `n` does not touch column `c`
        have hne : c ≠ n := Nat.ne_of_lt hcn
        rw [classAt_getD_nmsClass_other thre n mid i hne] at hpi
        rw [classAt_getD_nmsClass_other thre n mid j hne] at hpj
        rw [classAt_getD_nmsClass_other thre n mid i hne,
          classAt_getD_nmsClass_other thre n mid j hne] at hlt
        have := nonMaxSuppress_invariant thre n bs c i j hcn hi hj hpi hpj hlt
        rw [← hmid] at this
        rwa [bbox_iou_congr (sameGeom_getD_nmsClass thre n mid i)
          (sameGeom_getD_nmsClass thre n mid j)]
      · have := nmsClass_invariant thre c mid (hmidlen ▸ hi) (hmidlen ▸ hj) hpi hpj hlt
        rwa [bbox_iou_congr (sameGeom_getD_nmsClass thre c mid i)
          (sameGeom_getD_nmsClass thre c mid j)]

/-- Claim C2: after the per-class suppression phase of `batch_decode_yolo`
completes, any two candidates that both keep a positive score for a class
`c`, with `i` ranked before `j` in the descending ordering by
`classScores[c]` (stated as the unambiguous strict comparison of the
surviving scores; surviving scores are exactly the pre-suppression ones),
overlap by `IoU < τ_nms`. -/
theorem C2_suppression_invariant (thre : α) (nb : ℕ) (bs : List (Box α))
    (c i j : ℕ) (hc : c < nb) (hi : i < bs.length) (hj : j < bs.length)
    (hpi : 0 < classAt ((nonMaxSuppress thre nb bs).getD i boxD) c)
    (hpj : 0 < classAt ((nonMaxSuppress thre nb bs).getD j boxD) c)
    (hlt : classAt ((nonMaxSuppress thre nb bs).getD j boxD) c <
      classAt ((nonMaxSuppress thre nb bs).getD i boxD) c) :
    bbox_iou ((nonMaxSuppress thre nb bs).getD i boxD)
      ((nonMaxSuppress thre nb bs).getD j boxD) < thre :=
  nonMaxSuppress_invariant thre nb bs c i j hc hi hj (ne_of_gt hpi) (ne_of_gt hpj) hlt

lemma eval_nms_far :
    nonMaxSuppress ((3:ℝ)/10) 1
        (⟨0, 0, 1, 1, 1, [3/4]⟩ :: ⟨10, 10, 11, 11, 1, [1/2]⟩ :: []) =
      ⟨0, 0, 1, 1, 1, [3/4]⟩ :: ⟨10, 10, 11, 11, 1, [1/2]⟩ :: [] := by
  norm_num [nonMaxSuppress, nmsClass, sortedIndicesDesc, argsort, List.insertionSort,
    List.orderedInsert, List.range_succ, nmsOuter, nmsInner, classAt, boxD,
    bbox_iou, intersectArea, unionArea, _interval_overlap]

/-- Witness for C2: two distant boxes surviving the single class pass. -/
theorem C2_suppression_invariant_witness :
    bbox_iou
        ((nonMaxSuppress ((3:ℝ)/10) 1
          (⟨0, 0, 1, 1, 1, [3/4]⟩ :: ⟨10, 10, 11, 11, 1, [1/2]⟩ :: [])).getD 0 boxD)
        ((nonMaxSuppress ((3:ℝ)/10) 1
          (⟨0, 0, 1, 1, 1, [3/4]⟩ :: ⟨10, 10, 11, 11, 1, [1/2]⟩ :: [])).getD 1 boxD) <
      3/10 :=
  C2_suppression_invariant (3/10) 1 _ 0 0 1 (by norm_num) (by norm_num) (by norm_num)
    (by rw [eval_nms_far]; norm_num [classAt])
    (by rw [eval_nms_far]; norm_num [classAt])
    (by rw [eval_nms_far]; norm_num [classAt])

/-! ## Claim C3: the normalized-to-pixel conversion of box reconstruction -/

/-- Counterexample to claim C3 as stated: the source converts with
Python's `int()` (truncation toward zero), not with rounding.  A `1×1`
grid with one anchor of width/height `2/5` puts the normalized corner at
`3/10`; on a `5×5` feature map the scaled corner is `1.5`, which the code
truncates to `1` while the claim's `min(round(...), fmH)` formula gives
`2`. -/
theorem C3_counterexample :
    ((0:ℝ) + _sigmoid Real.exp 0) / 1 - (2/5 * Real.exp 0 / 1) / 2 = (3:ℝ)/10 ∧
      buildBoxes Real.exp ((2:ℝ)/5 :: 2/5 :: []) 5 5 [[[[0,0,0,0,1/2,1/2]]]] =
        [⟨1, 1, 3, 3, 1/2, [1/2]⟩] ∧
      min (round ((3:ℝ)/10 * 5)) 5 = (2 : ℤ) ∧
      ((1 : ℝ)) ≠ ((2 : ℤ) : ℝ) := by
  refine ⟨by norm_num [_sigmoid, Real.exp_zero], ?_, by norm_num [round_eq], by norm_num⟩
  rw [buildBoxes, buildTriples]
  norm_num [List.range_succ]
  rw [decodeTriple]
  norm_num [truncInt, _sigmoid, Real.exp_zero]

/-- Amended claim C3: for every candidate emitted by box reconstruction,
the pixel coordinates are obtained from the normalized corner coordinates
by scaling with the feature-map size, TRUNCATING toward zero (Python
`int()`), and clipping exactly as the source writes it — `xmin` and `ymax`
clipped against `fm_height`, `xmax` against `fm_width` (the `xmin`/`fmH`
asymmetry of the claim is indeed what the code does; only `round` must be
replaced by truncation). -/
theorem C3_pixel_conversion [FloorRing α] (exp : α → α) (anchors : List α)
    (fm_height fm_width : ℤ) (t : Tensor4 α) (bx : Box α)
    (hbx : bx ∈ buildBoxes exp anchors fm_height fm_width t) :
    ∃ row col b : ℕ, ∃ vec : List α,
      vec = ((t.getD row []).getD col []).getD b [] ∧
      0 < (vec.drop 5).sum ∧
      bx.xmin = ((min (truncInt ((((col : α) + _sigmoid exp (vec.getD 0 0)) /
          ((t.getD 0 []).length : α) -
          anchors.getD (2 * b) 0 * exp (vec.getD 2 0) / ((t.getD 0 []).length : α) / 2) *
            (fm_width : α))) fm_height : ℤ) : α) ∧
      bx.ymin = ((min (truncInt ((((row : α) + _sigmoid exp (vec.getD 1 0)) /
          (t.length : α) -
          anchors.getD (2 * b + 1) 0 * exp (vec.getD 3 0) / (t.length : α) / 2) *
            (fm_height : α))) fm_height : ℤ) : α) ∧
      bx.xmax = ((min (truncInt ((((col : α) + _sigmoid exp (vec.getD 0 0)) /
          ((t.getD 0 []).length : α) +
          anchors.getD (2 * b) 0 * exp (vec.getD 2 0) / ((t.getD 0 []).length : α) / 2) *
            (fm_width : α))) fm_width : ℤ) : α) ∧
      bx.ymax = ((min (truncInt ((((row : α) + _sigmoid exp (vec.getD 1 0)) /
          (t.length : α) +
          anchors.getD (2 * b + 1) 0 * exp (vec.getD 3 0) / (t.length : α) / 2) *
            (fm_height : α))) fm_height : ℤ) : α) := by
  unfold buildBoxes at hbx
  rw [List.mem_map] at hbx
  obtain ⟨⟨⟨row, col, b⟩, bx'⟩, hmem, hsnd⟩ := hbx
  simp only [buildTriples, List.mem_flatMap, List.mem_range] at hmem
  obtain ⟨row', hrow, col', hcol, b', hb, hmem⟩ := hmem
  by_cases hpos : 0 < ((((t.getD row' []).getD col' []).getD b' []).drop 5).sum
  · rw [if_pos hpos] at hmem
    simp only [List.mem_singleton, Prod.mk.injEq] at hmem
    obtain ⟨⟨hr, hc, hbb⟩, hbx'⟩ := hmem
    subst hr; subst hc; subst hbb
    have hbxeq : bx = decodeTriple exp anchors fm_height fm_width t.length
        (t.getD 0 []).length row col b (((t.getD row []).getD col []).getD b []) := by
      rw [← hsnd]; exact hbx'
    refine ⟨row, col, b, ((t.getD row []).getD col []).getD b [], rfl, hpos, ?_, ?_, ?_, ?_⟩ <;>
      · rw [hbxeq]
        rfl
  · rw [if_neg hpos] at hmem
    exact absurd hmem (List.not_mem_nil _)

lemma eval_build_q :
    buildBoxes (fun _ => (1:ℚ)) [1,1] 4 4 [[[[0,0,0,0,1/2,1/2]]]] =
      [⟨0, 0, 4, 4, 1/2, [1/2]⟩] := by
  rw [buildBoxes, buildTriples]
  norm_num [List.range_succ]
  rw [decodeTriple]
  norm_num [truncInt, _sigmoid]

/-- Witness for C3 at a concrete emitted box. -/
theorem C3_pixel_conversion_witness :
    ∃ row col b : ℕ, ∃ vec : List ℚ,
      vec = ((([[[[0,0,0,0,1/2,1/2]]]] : Tensor4 ℚ).getD row []).getD col []).getD b [] ∧
      0 < (vec.drop 5).sum ∧
      (⟨0, 0, 4, 4, 1/2, [1/2]⟩ : Box ℚ).xmin =
        ((min (truncInt ((((col : ℚ) + _sigmoid (fun _ => (1:ℚ)) (vec.getD 0 0)) /
            ((([[[[0,0,0,0,1/2,1/2]]]] : Tensor4 ℚ).getD 0 []).length : ℚ) -
            ([1,1] : List ℚ).getD (2 * b) 0 * (fun _ => (1:ℚ)) (vec.getD 2 0) /
              ((([[[[0,0,0,0,1/2,1/2]]]] : Tensor4 ℚ).getD 0 []).length : ℚ) / 2) *
              ((4:ℤ) : ℚ))) 4 : ℤ) : ℚ) ∧
      (⟨0, 0, 4, 4, 1/2, [1/2]⟩ : Box ℚ).ymin =
        ((min (truncInt ((((row : ℚ) + _sigmoid (fun _ => (1:ℚ)) (vec.getD 1 0)) /
            (([[[[0,0,0,0,1/2,1/2]]]] : Tensor4 ℚ).length : ℚ) -
            ([1,1] : List ℚ).getD (2 * b + 1) 0 * (fun _ => (1:ℚ)) (vec.getD 3 0) /
              (([[[[0,0,0,0,1/2,1/2]]]] : Tensor4 ℚ).length : ℚ) / 2) *
              ((4:ℤ) : ℚ))) 4 : ℤ) : ℚ) ∧
      (⟨0, 0, 4, 4, 1/2, [1/2]⟩ : Box ℚ).xmax =
        ((min (truncInt ((((col : ℚ) + _sigmoid (fun _ => (1:ℚ)) (vec.getD 0 0)) /
            ((([[[[0,0,0,0,1/2,1/2]]]] : Tensor4 ℚ).getD 0 []).length : ℚ) +
            ([1,1] : List ℚ).getD (2 * b) 0 * (fun _ => (1:ℚ)) (vec.getD 2 0) /
              ((([[[[0,0,0,0,1/2,1/2]]]] : Tensor4 ℚ).getD 0 []).length : ℚ) / 2) *
              ((4:ℤ) : ℚ))) 4 : ℤ) : ℚ) ∧
      (⟨0, 0, 4, 4, 1/2, [1/2]⟩ : Box ℚ).ymax =
        ((min (truncInt ((((row : ℚ) + _sigmoid (fun _ => (1:ℚ)) (vec.getD 1 0)) /
            (([[[[0,0,0,0,1/2,1/2]]]] : Tensor4 ℚ).length : ℚ) +
            ([1,1] : List ℚ).getD (2 * b + 1) 0 * (fun _ => (1:ℚ)) (vec.getD 3 0) /
              (([[[[0,0,0,0,1/2,1/2]]]] : Tensor4 ℚ).length : ℚ) / 2) *
              ((4:ℤ) : ℚ))) 4 : ℤ) : ℚ) :=
  C3_pixel_conversion (fun _ => (1:ℚ)) [1,1] 4 4 [[[[0,0,0,0,1/2,1/2]]]]
    ⟨0, 0, 4, 4, 1/2, [1/2]⟩ (by rw [eval_build_q]; exact List.mem_singleton.mpr rfl)

/-! ## Claim C4: range and thresholding of the activated class scores -/

/-- The class score the activation pass computes BEFORE the threshold
mask: `sigmoid(objectness) * (exp(stab logit_k) / Σ_j exp(stab logit_j))`,
softmax-normalised per candidate vector. -/
def preScore (exp stab : α → α) (vec : List α) (k : ℕ) : α :=
  _sigmoid exp (vec.getD 4 0) *
    (((vec.drop 5).map fun v => exp (stab v)).getD k 0 /
      ((vec.drop 5).map fun v => exp (stab v)).sum)

lemma getD_map_of_lt {β γ : Type} (f : β → γ) (l : List β) (k : ℕ) (d : β)
    (d' : γ) (hk : k < l.length) : (l.map f).getD k d' = f (l.getD k d) := by
  rw [List.getD_eq_getElem?_getD, List.getD_eq_getElem?_getD, List.getElem?_map,
    List.getElem?_eq_getElem hk]
  rfl

lemma activate_getD (exp : α → α) (tsm thre : α) (t : Tensor4 α) {r c b : ℕ}
    (hr : r < t.length) (hc : c < (t.getD r []).length)
    (hb : b < ((t.getD r []).getD c []).length) :
    (((activate exp tsm thre t).getD r []).getD c []).getD b [] =
      activateVec exp (stabilize tsm (classEntries t)) thre
        (((t.getD r []).getD c []).getD b []) := by
  unfold activate
  rw [getD_map_of_lt _ t r [] [] hr, getD_map_of_lt _ _ c [] [] hc,
    getD_map_of_lt _ _ b [] [] hb]

lemma activateVec_class_entry (exp stab : α → α) (thre : α) (vec : List α)
    {k : ℕ} (hk : k < (vec.drop 5).length) :
    (activateVec exp stab thre vec).getD (5 + k) 0 =
      if thre < preScore exp stab vec k then preScore exp stab vec k else 0 := by
  have hlen : 5 ≤ vec.length := by
    rw [List.length_drop] at hk
    omega
  have htake : (vec.take 4).length = 4 := by
    rw [List.length_take]
    omega
  have hk' : k < ((vec.drop 5).map fun v => exp (stab v)).length := by
    rwa [List.length_map]
  unfold activateVec preScore
  rw [List.getD_eq_getElem?_getD,
    List.getElem?_append_right (by rw [htake]; omega), htake]
  have hidx : 5 + k - 4 = k + 1 := by omega
  rw [hidx, List.getElem?_cons_succ, List.getElem?_map,
    List.getElem?_eq_getElem hk', List.getD_eq_getElem _ 0 hk']
  rfl

lemma getD_mem_of_lt {β : Type} (l : List β) (k : ℕ) (d : β) (hk : k < l.length) :
    l.getD k d ∈ l := by
  rw [List.getD_eq_getElem l d hk]
  exact List.getElem_mem hk

lemma sigmoid_pos {exp : α → α} (hexp : ∀ x, 0 < exp x) (x : α) :
    0 < _sigmoid exp x := by
  unfold _sigmoid
  have := hexp (-x)
  positivity

lemma sigmoid_le_one {exp : α → α} (hexp : ∀ x, 0 < exp x) (x : α) :
    _sigmoid exp x ≤ 1 := by
  unfold _sigmoid
  rw [div_le_one (by linarith [hexp (-x)])]
  linarith [hexp (-x)]

lemma preScore_pos {exp : α → α} (stab : α → α) (hexp : ∀ x, 0 < exp x)
    (vec : List α) {k : ℕ} (hk : k < (vec.drop 5).length) :
    0 < preScore exp stab vec k := by
  unfold preScore
  have hk' : k < ((vec.drop 5).map fun v => exp (stab v)).length := by
    rwa [List.length_map]
  have hek : 0 < ((vec.drop 5).map fun v => exp (stab v)).getD k 0 := by
    rw [getD_map_of_lt _ _ k 0 0 hk]
    exact hexp _
  have hsum : 0 < ((vec.drop 5).map fun v => exp (stab v)).sum := by
    have hmem : ((vec.drop 5).map fun v => exp (stab v)).getD k 0 ∈
        (vec.drop 5).map fun v => exp (stab v) := getD_mem_of_lt _ k 0 hk'
    have hnn : ∀ x ∈ (vec.drop 5).map fun v => exp (stab v), 0 ≤ x := by
      intro x hx
      obtain ⟨v, _, rfl⟩ := List.mem_map.mp hx
      exact le_of_lt (hexp _)
    exact lt_of_lt_of_le hek (List.single_le_sum hnn _ hmem)
  exact mul_pos (sigmoid_pos hexp _) (div_pos hek hsum)

lemma preScore_le_one {exp : α → α} (stab : α → α) (hexp : ∀ x, 0 < exp x)
    (vec : List α) {k : ℕ} (hk : k < (vec.drop 5).length) :
    preScore exp stab vec k ≤ 1 := by
  unfold preScore
  have hk' : k < ((vec.drop 5).map fun v => exp (stab v)).length := by
    rwa [List.length_map]
  have hek : 0 < ((vec.drop 5).map fun v => exp (stab v)).getD k 0 := by
    rw [getD_map_of_lt _ _ k 0 0 hk]
    exact hexp _
  have hnn : ∀ x ∈ (vec.drop 5).map fun v => exp (stab v), 0 ≤ x := by
    intro x hx
    obtain ⟨v, _, rfl⟩ := List.mem_map.mp hx
    exact le_of_lt (hexp _)
  have hle : ((vec.drop 5).map fun v => exp (stab v)).getD k 0 ≤
      ((vec.drop 5).map fun v => exp (stab v)).sum :=
    List.single_le_sum hnn _ (getD_mem_of_lt _ k 0 hk')
  have hsum : 0 < ((vec.drop 5).map fun v => exp (stab v)).sum :=
    lt_of_lt_of_le hek hle
  refine mul_le_one (sigmoid_le_one hexp _) (le_of_lt (div_pos hek hsum)) ?_
  rw [div_le_one hsum]
  exact hle

/-- Amended claim C4: after the activation pass, every class-score entry
lies in `[0, 1]`, and the threshold mask zeroes EXACTLY the pre-mask
scores `≤ τ_obj` (the source keeps a score only when `score > obj_thre`,
so a score equal to the threshold is zeroed as well; scores are not
renormalised — a kept entry equals its pre-mask value). -/
theorem C4_activation_range_and_mask (exp : α → α) (hexp : ∀ x, 0 < exp x)
    (tsm thre : α) (t : Tensor4 α) (r c b k : ℕ)
    (hr : r < t.length) (hc : c < (t.getD r []).length)
    (hb : b < ((t.getD r []).getD c []).length)
    (vec : List α) (hvec : vec = ((t.getD r []).getD c []).getD b [])
    (hk : k < (vec.drop 5).length)
    (entry : α)
    (hentry : entry =
      ((((activate exp tsm thre t).getD r []).getD c []).getD b []).getD (5 + k) 0) :
    entry = (if thre < preScore exp (stabilize tsm (classEntries t)) vec k then
        preScore exp (stabilize tsm (classEntries t)) vec k else 0) ∧
      0 < preScore exp (stabilize tsm (classEntries t)) vec k ∧
      preScore exp (stabilize tsm (classEntries t)) vec k ≤ 1 ∧
      0 ≤ entry ∧ entry ≤ 1 ∧
      (entry = 0 ↔ preScore exp (stabilize tsm (classEntries t)) vec k ≤ thre) := by
  subst hvec
  have hact := activate_getD exp tsm thre t hr hc hb
  rw [hentry, hact, activateVec_class_entry exp _ thre _ hk]
  have hpos := preScore_pos (stabilize tsm (classEntries t)) hexp
    (((t.getD r []).getD c []).getD b []) hk
  have hone := preScore_le_one (stabilize tsm (classEntries t)) hexp
    (((t.getD r []).getD c []).getD b []) hk
  refine ⟨rfl, hpos, hone, ?_, ?_, ?_⟩
  · split
    · exact le_of_lt hpos
    · exact le_refl 0
  · split
    · exact hone
    · exact zero_le_one
  · constructor
    · intro h0
      by_contra hgt
      rw [if_pos (lt_of_not_le hgt)] at h0
      exact absurd h0 (ne_of_gt hpos)
    · intro hle
      rw [if_neg (not_lt.mpr hle)]

/-- Counterexample to claim C4 as stated: with `τ_obj = 1/2` and a raw
vector whose activated class score is exactly `1/2` (one class, zero
logits, `sigmoid 0 = 1/2`), the score is NOT strictly below the threshold,
yet the code zeroes it (`x *= x > obj_thre` keeps only strict excess). -/
theorem C4_counterexample :
    ((((activate Real.exp (-100) (1/2) [[[[0,0,0,0,0,0]]]]).getD 0 []).getD 0
        []).getD 0 []).getD 5 0 = 0 ∧
      preScore Real.exp (stabilize (-100) (classEntries [[[[0,0,0,0,0,0]]]]))
        [0,0,0,0,0,0] 0 = 1/2 ∧
      ¬((1:ℝ)/2 < 1/2) ∧ (0 : ℝ) ≠ 1/2 := by
  refine ⟨?_, ?_, by norm_num, by norm_num⟩
  · norm_num [activate, classEntries, stabilize, activateVec, _sigmoid, listMax,
      listMin, Real.exp_zero]
  · norm_num [preScore, classEntries, stabilize, _sigmoid, listMax, listMin,
      Real.exp_zero]

/-- Witness for C4 over `ℚ` with a positive stand-in exponential. -/
theorem C4_activation_range_and_mask_witness :
    ((1:ℚ)/2 = (if (3:ℚ)/10 < preScore (fun _ => (1:ℚ))
          (stabilize (-100) (classEntries [[[[0,0,0,0,0,0]]]])) [0,0,0,0,0,0] 0 then
        preScore (fun _ => (1:ℚ)) (stabilize (-100) (classEntries [[[[0,0,0,0,0,0]]]]))
          [0,0,0,0,0,0] 0 else 0) ∧
      0 < preScore (fun _ => (1:ℚ)) (stabilize (-100) (classEntries [[[[0,0,0,0,0,0]]]]))
        [0,0,0,0,0,0] 0 ∧
      preScore (fun _ => (1:ℚ)) (stabilize (-100) (classEntries [[[[0,0,0,0,0,0]]]]))
        [0,0,0,0,0,0] 0 ≤ 1 ∧
      0 ≤ (1:ℚ)/2 ∧ (1:ℚ)/2 ≤ 1 ∧
      ((1:ℚ)/2 = 0 ↔ preScore (fun _ => (1:ℚ))
        (stabilize (-100) (classEntries [[[[0,0,0,0,0,0]]]])) [0,0,0,0,0,0] 0 ≤ 3/10)) :=
  C4_activation_range_and_mask (fun _ => 1) (fun _ => by norm_num) (-100) (3/10)
    [[[[0,0,0,0,0,0]]]] 0 0 0 0 (by norm_num) (by norm_num) (by norm_num)
    [0,0,0,0,0,0] (by norm_num) (by norm_num) (1/2)
    (by norm_num [activate, classEntries, stabilize, activateVec, _sigmoid, listMax,
      listMin])

/-! ## Claim C5: the softmax stabilisation is global, not per-vector -/

/-- Per-vector stabilised softmax as the spec describes `_softmax`:
subtract the maximum OF THAT VECTOR, rescale by `t / min` when the
stabilised minimum of that vector falls below `t`, exponentiate and
normalise.  This definition follows the spec's words and exists to be
compared with the global stabilisation the source applies at its call site
(see `stabilize` and `activate`). -/
def softmaxSpecVec (exp : α → α) (tsm : α) (v : List α) : List α :=
  let M := listMax v
  let sh := v.map (fun x => x - M)
  let m := listMin sh
  let st := if m < tsm then sh.map (fun x => x / m * tsm) else sh
  let e := st.map exp
  e.map (fun ev => ev / e.sum)

lemma le_foldl_max : ∀ (l : List α) (acc : α), acc ≤ l.foldl max acc
  | [], acc => le_refl acc
  | x :: xs, acc => le_trans (le_max_left acc x) (le_foldl_max xs (max acc x))

lemma mem_le_foldl_max : ∀ (l : List α) (acc a : α), a ∈ l → a ≤ l.foldl max acc
  | x :: xs, acc, a, h => by
      rcases List.mem_cons.mp h with rfl | h
      · exact le_trans (le_max_right acc a) (le_foldl_max xs (max acc a))
      · exact mem_le_foldl_max xs (max acc x) a h

lemma le_listMax {l : List α} {a : α} (h : a ∈ l) : a ≤ listMax l := by
  cases l with
  | nil => exact absurd h (List.not_mem_nil a)
  | cons x xs =>
      rcases List.mem_cons.mp h with rfl | h
      · exact le_foldl_max xs a
      · exact mem_le_foldl_max xs x a h

lemma foldl_min_le : ∀ (l : List α) (acc : α), l.foldl min acc ≤ acc
  | [], acc => le_refl acc
  | x :: xs, acc => le_trans (foldl_min_le xs (min acc x)) (min_le_left acc x)

lemma foldl_min_le_mem : ∀ (l : List α) (acc a : α), a ∈ l → l.foldl min acc ≤ a
  | x :: xs, acc, a, h => by
      rcases List.mem_cons.mp h with rfl | h
      · exact le_trans (foldl_min_le xs (min acc a)) (min_le_right acc a)
      · exact foldl_min_le_mem xs (min acc x) a h

lemma listMin_le {l : List α} {a : α} (h : a ∈ l) : listMin l ≤ a := by
  cases l with
  | nil => exact absurd h (List.not_mem_nil a)
  | cons x xs =>
      rcases List.mem_cons.mp h with rfl | h
      · exact foldl_min_le xs a
      · exact foldl_min_le_mem xs x a h

lemma foldl_min_mem : ∀ (l : List α) (acc : α), l.foldl min acc = acc ∨ l.foldl min acc ∈ l
  | [], _ => Or.inl rfl
  | x :: xs, acc => by
      rw [List.foldl_cons]
      rcases foldl_min_mem xs (min acc x) with h | h
      · rcases min_cases acc x with ⟨hm, _⟩ | ⟨hm, _⟩
        · exact Or.inl (by rw [h, hm])
        · exact Or.inr (by rw [h, hm]; exact List.mem_cons_self x xs)
      · exact Or.inr (List.mem_cons_of_mem x h)

lemma listMin_mem : ∀ (l : List α), l ≠ [] → listMin l ∈ l
  | [], h => absurd rfl h
  | x :: xs, _ => by
      show xs.foldl min x ∈ x :: xs
      rcases foldl_min_mem xs x with h | h
      · rw [h]
        exact List.mem_cons_self x xs
      · exact List.mem_cons_of_mem x h

lemma foldl_max_mem : ∀ (l : List α) (acc : α), l.foldl max acc = acc ∨ l.foldl max acc ∈ l
  | [], _ => Or.inl rfl
  | x :: xs, acc => by
      rw [List.foldl_cons]
      rcases foldl_max_mem xs (max acc x) with h | h
      · rcases max_cases acc x with ⟨hm, _⟩ | ⟨hm, _⟩
        · exact Or.inl (by rw [h, hm])
        · exact Or.inr (by rw [h, hm]; exact List.mem_cons_self x xs)
      · exact Or.inr (List.mem_cons_of_mem x h)

lemma listMax_mem : ∀ (l : List α), l ≠ [] → listMax l ∈ l
  | [], h => absurd rfl h
  | x :: xs, _ => by
      show xs.foldl max x ∈ x :: xs
      rcases foldl_max_mem xs x with h | h
      · rw [h]
        exact List.mem_cons_self x xs
      · exact List.mem_cons_of_mem x h

lemma mem_classEntries_of_mem_drop (t : Tensor4 α) {r c b : ℕ}
    (hr : r < t.length) (hc : c < (t.getD r []).length)
    (hb : b < ((t.getD r []).getD c []).length) {a : α}
    (ha : a ∈ (((t.getD r []).getD c []).getD b []).drop 5) :
    a ∈ classEntries t := by
  unfold classEntries
  rw [List.mem_flatMap]
  refine ⟨t.getD r [], getD_mem_of_lt t r [] hr, ?_⟩
  rw [List.mem_flatMap]
  refine ⟨(t.getD r []).getD c [], getD_mem_of_lt _ c [] hc, ?_⟩
  rw [List.mem_flatMap]
  exact ⟨((t.getD r []).getD c []).getD b [], getD_mem_of_lt _ b [] hb, ha⟩

/-- Amended claim C5: the stabilisation of `_softmax` is computed over the
WHOLE array passed at the call site — the entire class tensor across all
cells and anchors — not per candidate vector.  Whenever the global rescale
branch is NOT triggered (the globally shifted minimum stays at or above
the floor `t`), the resulting class scores do coincide with the spec's
per-vector stabilised softmax, because a softmax is invariant under
shifting a vector by a constant; the rescale branch, keyed on the global
minimum, breaks this (see the counterexample). -/
theorem C5_stabilization_global (exp : α → α) (hpos : ∀ x, 0 < exp x)
    (hadd : ∀ a b : α, exp (a + b) = exp a * exp b) (tsm : α) (t : Tensor4 α)
    (r c b k : ℕ) (hr : r < t.length) (hc : c < (t.getD r []).length)
    (hb : b < ((t.getD r []).getD c []).length)
    (vec : List α) (hvec : vec = ((t.getD r []).getD c []).getD b [])
    (hk : k < (vec.drop 5).length)
    (hnr : ¬ listMin ((classEntries t).map
      (fun v => v - listMax (classEntries t))) < tsm) :
    preScore exp (stabilize tsm (classEntries t)) vec k =
      _sigmoid exp (vec.getD 4 0) * (softmaxSpecVec exp tsm (vec.drop 5)).getD k 0 := by
  subst hvec
  set vec := ((t.getD r []).getD c []).getD b [] with hvecdef
  set cls := vec.drop 5 with hcls
  set Mg := listMax (classEntries t) with hMg
  set Mv := listMax cls with hMv
  have hne : cls ≠ [] := by
    intro h
    rw [h] at hk
    exact absurd hk (by norm_num)
  have hsub : ∀ a ∈ cls, a ∈ classEntries t := fun a ha =>
    mem_classEntries_of_mem_drop t hr hc hb ha
  have hMvMg : Mv ≤ Mg := le_listMax (hsub _ (listMax_mem cls hne))
  have htsm : tsm ≤ listMin ((classEntries t).map (fun v => v - Mg)) := not_lt.mp hnr
  have hstab : ∀ v, stabilize tsm (classEntries t) v = v - Mg := by
    intro v
    unfold stabilize
    rw [if_neg hnr]
  have hspec_nr : ¬ listMin (cls.map (fun x => x - Mv)) < tsm := by
    have hmapne : cls.map (fun x => x - Mv) ≠ [] := by
      intro h
      exact hne (List.map_eq_nil_iff.mp h)
    obtain ⟨a, ha, hEq⟩ := List.mem_map.mp (listMin_mem _ hmapne)
    have h1 : listMin ((classEntries t).map (fun v => v - Mg)) ≤ a - Mg :=
      listMin_le (List.mem_map.mpr ⟨a, hsub a ha, rfl⟩)
    rw [not_lt, ← hEq]
    have : a - Mg ≤ a - Mv := by linarith
    linarith
  have hes : cls.map (fun v => exp (stabilize tsm (classEntries t) v)) =
      cls.map (fun v => exp (v - Mv) * exp (Mv - Mg)) := by
    refine List.map_congr_left ?_
    intro a _
    rw [hstab a, ← hadd]
    congr 1
    ring
  have hklen : k < (cls.map (fun x => exp (x - Mv))).length := by
    rwa [List.length_map]
  unfold preScore
  rw [hes, getD_map_of_lt (fun v => exp (v - Mv) * exp (Mv - Mg)) cls k 0 0 hk,
    List.sum_map_mul_right cls (fun v => exp (v - Mv)) (exp (Mv - Mg)),
    mul_div_mul_right _ _ (ne_of_gt (hpos (Mv - Mg)))]
  simp only [softmaxSpecVec]
  rw [← hMv, if_neg hspec_nr]
  have hkE : k < (List.map exp (List.map (fun x => x - Mv) cls)).length := by
    rw [List.length_map, List.length_map]
    exact hk
  have hkf : k < (List.map (fun x => x - Mv) cls).length := by
    rw [List.length_map]
    exact hk
  rw [getD_map_of_lt _ _ k 0 0 hkE, getD_map_of_lt _ _ k 0 0 hkf,
    getD_map_of_lt _ _ k 0 0 hk, List.map_map]
  rfl

/-- Witness for C5 over `ℚ` with the constant (positive, multiplicative)
stand-in exponential: with one cell and one class the global and
per-vector stabilisations agree when no rescale fires. -/
theorem C5_stabilization_global_witness :
    preScore (fun _ => (1:ℚ)) (stabilize (-100) (classEntries [[[[0,0,0,0,0,0]]]]))
        [0,0,0,0,0,0] 0 =
      _sigmoid (fun _ => (1:ℚ)) (([0,0,0,0,0,0] : List ℚ).getD 4 0) *
        (softmaxSpecVec (fun _ => (1:ℚ)) (-100) (([0,0,0,0,0,0] : List ℚ).drop 5)).getD 0 0 :=
  C5_stabilization_global (fun _ => 1) (fun _ => by norm_num) (fun _ _ => by norm_num)
    (-100) [[[[0,0,0,0,0,0]]]] 0 0 0 0 (by norm_num) (by norm_num) (by norm_num)
    [0,0,0,0,0,0] (by norm_num) (by norm_num)
    (by norm_num [classEntries, listMax, listMin])

/-- Counterexample to claim C5 as stated: with class-logit vectors
`[0, 50]` and `[200, 0]` in the same tensor, the global maximum `200` and
global minimum `-200` trigger the rescale branch for every vector, so the
candidate with logits `[0, 50]` gets the exponent arguments `[-100, -75]`
instead of its per-vector stabilised `[-50, 0]`; the resulting class score
`1/2 · 1/(1+e^25)` differs from the per-vector value `1/2 · 1/(1+e^50)`.
The second conjunct ties the left-hand side to the activation pass of the
decode. -/
theorem C5_counterexample :
    preScore Real.exp
        (stabilize (-100) (classEntries [[[[0,0,0,0,0,0,50], [0,0,0,0,0,200,0]]]]))
        [0,0,0,0,0,0,50] 0 ≠
      _sigmoid Real.exp 0 *
        (softmaxSpecVec Real.exp (-100) ((0:ℝ) :: 50 :: [])).getD 0 0 ∧
    ((((activate Real.exp (-100) 0
          [[[[0,0,0,0,0,0,50], [0,0,0,0,0,200,0]]]]).getD 0 []).getD 0 []).getD 0
        []).getD 5 0 =
      preScore Real.exp
        (stabilize (-100) (classEntries [[[[0,0,0,0,0,0,50], [0,0,0,0,0,200,0]]]]))
        [0,0,0,0,0,0,50] 0 := by
  constructor
  · have hL : preScore Real.exp
        (stabilize (-100) (classEntries [[[[0,0,0,0,0,0,50], [0,0,0,0,0,200,0]]]]))
        [0,0,0,0,0,0,50] 0 =
        1/2 * (Real.exp (-100) / (Real.exp (-100) + Real.exp (-75))) := by
      norm_num [preScore, stabilize, classEntries, listMax, listMin, _sigmoid,
        max_def, min_def, Real.exp_zero]
    have hR : _sigmoid Real.exp 0 *
        (softmaxSpecVec Real.exp (-100) ((0:ℝ) :: 50 :: [])).getD 0 0 =
        1/2 * (Real.exp (-50) / (Real.exp (-50) + 1)) := by
      norm_num [softmaxSpecVec, listMax, listMin, max_def, min_def, _sigmoid,
        Real.exp_zero]
    rw [hL, hR]
    have r1 : Real.exp (-100) / (Real.exp (-100) + Real.exp (-75)) =
        1 / (1 + Real.exp 25) := by
      have h75 : Real.exp (-75) = Real.exp (-100) * Real.exp 25 := by
        rw [← Real.exp_add]
        norm_num
      rw [h75, div_eq_div_iff (by positivity) (by positivity)]
      ring
    have r2 : Real.exp (-50) / (Real.exp (-50) + 1) = 1 / (1 + Real.exp 50) := by
      have h50 : Real.exp (-50) * Real.exp 50 = 1 := by
        rw [← Real.exp_add]
        norm_num [Real.exp_zero]
      rw [div_eq_div_iff (by positivity) (by positivity), mul_add, mul_one, h50, one_mul]
    rw [r1, r2]
    have hlt : 1 / (1 + Real.exp 50) < 1 / (1 + Real.exp 25) := by
      refine one_div_lt_one_div_of_lt (by positivity) ?_
      have := Real.exp_lt_exp.mpr (show (25:ℝ) < 50 by norm_num)
      linarith
    intro heq
    have := mul_left_cancel₀ (show (1:ℝ)/2 ≠ 0 by norm_num) heq
    rw [this] at hlt
    exact lt_irrefl _ hlt
  · rw [activate_getD Real.exp (-100) 0 _ (by norm_num) (by norm_num) (by norm_num)]
    have hv : (((([[[[(0:ℝ),0,0,0,0,0,50], [0,0,0,0,0,200,0]]]] :
        Tensor4 ℝ).getD 0 []).getD 0 []).getD 0 []) = [0,0,0,0,0,0,50] := by
      norm_num
    rw [hv]
    have h2 := activateVec_class_entry Real.exp
      (stabilize (-100) (classEntries [[[[(0:ℝ),0,0,0,0,0,50], [0,0,0,0,0,200,0]]]]))
      0 [0,0,0,0,0,0,50] (k := 0) (by norm_num)
    rw [show (5:ℕ) + 0 = 5 from rfl] at h2
    rw [h2, if_pos]
    exact preScore_pos _ (fun x => Real.exp_pos x) _ (by norm_num)

/-! ## Claim C7: degenerate boxes reach `bbox_iou` with a zero union -/

lemma eval_activate_2z6 :
    activate Real.exp (-100) ((3:ℝ)/10) [[[[0,0,0,0,0,0], [0,0,0,0,0,0]]]] =
      [[[[(0:ℝ),0,0,0,1/2,1/2], [0,0,0,0,1/2,1/2]]]] := by
  norm_num [activate, classEntries, stabilize, activateVec, _sigmoid, listMax, listMin,
    max_def, min_def, Real.exp_zero]

/-- Claim C7: with tiny anchors `(1/100, 1/100)` and a `1×1` feature map,
both candidates of an all-zeros `1×1×2` tensor reconstruct to the
zero-extent box `(0,0,0,0)` with class score `1/2 > 0`; their union area is
`0`, the suppression ordering anchors index 1 first, and the pass then
computes `bbox_iou(boxes[1], boxes[0]) = float(0)/0` — a
`ZeroDivisionError` in Python.  There is no `DegenerateBox` handling
anywhere in the source, so the claim (spec §4.3/§7) is the intent and the
code is the bug; the Lean model totalises the division as `0`. -/
theorem C7_zero_union_reached :
    buildBoxes Real.exp ((1:ℝ)/100 :: 1/100 :: 1/100 :: 1/100 :: []) 1 1
        (activate Real.exp (-100) ((3:ℝ)/10) [[[[0,0,0,0,0,0], [0,0,0,0,0,0]]]]) =
      [⟨0, 0, 0, 0, 1/2, [1/2]⟩, ⟨0, 0, 0, 0, 1/2, [1/2]⟩] ∧
      unionArea (⟨0, 0, 0, 0, 1/2, [1/2]⟩ : Box ℝ) ⟨0, 0, 0, 0, 1/2, [1/2]⟩ = 0 ∧
      0 < classAt (⟨(0:ℝ), 0, 0, 0, 1/2, [1/2]⟩ : Box ℝ) 0 ∧
      sortedIndicesDesc (([⟨(0:ℝ), 0, 0, 0, 1/2, [1/2]⟩, ⟨0, 0, 0, 0, 1/2, [1/2]⟩] :
        List (Box ℝ)).map (fun b => classAt b 0)) = [1, 0] := by
  refine ⟨?_, ?_, ?_, ?_⟩
  · rw [eval_activate_2z6, buildBoxes, buildTriples]
    norm_num [List.range_succ]
    rw [decodeTriple, decodeTriple]
    norm_num [truncInt, _sigmoid, Real.exp_zero]
  · norm_num [unionArea, intersectArea, _interval_overlap]
  · norm_num [classAt]
  · norm_num [sortedIndicesDesc, argsort, List.insertionSort, List.orderedInsert,
      List.range_succ, classAt]

/-! ## Claim C8: decode performs no configuration validation -/

lemma interval_overlap_nonneg (x1 x2 x3 x4 : α) (h1 : x1 ≤ x2) (h2 : x3 ≤ x4) :
    0 ≤ _interval_overlap x1 x2 x3 x4 := by
  unfold _interval_overlap
  split_ifs with ha hb hc
  · exact le_refl 0
  · have := le_min h1 (not_lt.mp hb)
    linarith
  · exact le_refl 0
  · have := le_min (not_lt.mp hc) h2
    linarith

lemma interval_overlap_le_left (x1 x2 x3 x4 : α) (h1 : x1 ≤ x2) :
    _interval_overlap x1 x2 x3 x4 ≤ x2 - x1 := by
  unfold _interval_overlap
  split_ifs with ha hb hc <;>
    linarith [min_le_left x2 x4, min_le_right x2 x4]

lemma interval_overlap_le_right (x1 x2 x3 x4 : α) (h2 : x3 ≤ x4) :
    _interval_overlap x1 x2 x3 x4 ≤ x4 - x3 := by
  unfold _interval_overlap
  split_ifs with ha hb hc <;>
    linarith [min_le_left x2 x4, min_le_right x2 x4]

lemma bbox_iou_le_one (a b : Box α) (ha : a.xmin < a.xmax ∧ a.ymin < a.ymax)
    (hb : b.xmin < b.xmax ∧ b.ymin < b.ymax) : bbox_iou a b ≤ 1 := by
  obtain ⟨hax, hay⟩ := ha
  obtain ⟨hbx, hby⟩ := hb
  have hox := interval_overlap_nonneg a.xmin a.xmax b.xmin b.xmax
    (le_of_lt hax) (le_of_lt hbx)
  have hoy := interval_overlap_nonneg a.ymin a.ymax b.ymin b.ymax
    (le_of_lt hay) (le_of_lt hby)
  have hoxa := interval_overlap_le_left a.xmin a.xmax b.xmin b.xmax (le_of_lt hax)
  have hoya := interval_overlap_le_left a.ymin a.ymax b.ymin b.ymax (le_of_lt hay)
  have hoxb := interval_overlap_le_right a.xmin a.xmax b.xmin b.xmax (le_of_lt hbx)
  have hoyb := interval_overlap_le_right a.ymin a.ymax b.ymin b.ymax (le_of_lt hby)
  have hia : intersectArea a b ≤ (a.xmax - a.xmin) * (a.ymax - a.ymin) := by
    unfold intersectArea
    exact mul_le_mul hoxa hoya hoy (by linarith)
  have hib : intersectArea a b ≤ (b.xmax - b.xmin) * (b.ymax - b.ymin) := by
    unfold intersectArea
    exact mul_le_mul hoxb hoyb hoy (by linarith)
  have hbpos : 0 < (b.xmax - b.xmin) * (b.ymax - b.ymin) := by
    apply mul_pos <;> linarith
  have hu : 0 < unionArea a b := by
    unfold unionArea
    linarith
  unfold bbox_iou
  rw [div_le_one hu]
  unfold unionArea
  linarith

lemma mem_lt_of_sortedIndicesDesc {s : List α} {i : ℕ}
    (h : i ∈ sortedIndicesDesc s) : i < s.length := by
  unfold sortedIndicesDesc argsort at h
  rw [List.mem_reverse] at h
  exact List.mem_range.mp ((List.perm_insertionSort _ _).mem_iff.mp h)

lemma nmsInner_id (thre : α) (hthre : 1 < thre) (c : ℕ) (bi : Box α)
    (hbi : bi.xmin < bi.xmax ∧ bi.ymin < bi.ymax) :
    ∀ (js : List ℕ) (bs : List (Box α)),
      (∀ bx ∈ bs, bx.xmin < bx.xmax ∧ bx.ymin < bx.ymax) →
      (∀ j ∈ js, j < bs.length) →
      nmsInner thre c bi js bs = bs
  | [], _, _, _ => rfl
  | j :: js, bs, hwf, hjs => by
      rw [nmsInner]
      have hj : j < bs.length := hjs j (List.mem_cons_self j js)
      have hiou : bbox_iou bi (bs.getD j boxD) ≤ 1 :=
        bbox_iou_le_one bi _ hbi (hwf _ (getD_mem_of_lt bs j boxD hj))
      rw [if_neg (by linarith)]
      exact nmsInner_id thre hthre c bi hbi js bs hwf fun k hk =>
        hjs k (List.mem_cons_of_mem j hk)

lemma nmsOuter_id (thre : α) (hthre : 1 < thre) (c : ℕ) :
    ∀ (order : List ℕ) (bs : List (Box α)),
      (∀ bx ∈ bs, bx.xmin < bx.xmax ∧ bx.ymin < bx.ymax) →
      (∀ i ∈ order, i < bs.length) →
      nmsOuter thre c order bs = bs
  | [], _, _, _ => rfl
  | i :: rest, bs, hwf, his => by
      rw [nmsOuter]
      have hi : i < bs.length := his i (List.mem_cons_self i rest)
      have hrest : ∀ j ∈ rest, j < bs.length := fun j hj =>
        his j (List.mem_cons_of_mem i hj)
      have hinner : nmsInner thre c (bs.getD i boxD) rest bs = bs :=
        nmsInner_id thre hthre c _ (hwf _ (getD_mem_of_lt bs i boxD hi)) rest bs hwf hrest
      have hstep : (if classAt (bs.getD i boxD) c = 0 then bs
          else nmsInner thre c (bs.getD i boxD) rest bs) = bs := by
        rw [hinner, ite_self]
      rw [hstep]
      exact nmsOuter_id thre hthre c rest bs hwf hrest

lemma nmsClass_id (thre : α) (hthre : 1 < thre) (c : ℕ) (bs : List (Box α))
    (hwf : ∀ bx ∈ bs, bx.xmin < bx.xmax ∧ bx.ymin < bx.ymax) :
    nmsClass thre c bs = bs := by
  unfold nmsClass
  refine nmsOuter_id thre hthre c _ bs hwf ?_
  intro i hi
  have := mem_lt_of_sortedIndicesDesc hi
  rwa [List.length_map] at this

/-- Amended claim C8: `batch_decode_yolo` performs NO configuration
validation at all.  An out-of-range suppression threshold `τ_nms > 1` is
used as-is: no comparison can reach it, so suppression silently never
fires and decode completes normally.  (Likewise an anchor-length mismatch
is not checked: it surfaces only as an `IndexError` from `anchors[2*b+0]`
during candidate construction — after the activation pass has already
mutated the caller's array — and an out-of-range `τ_obj` is simply used in
the comparisons.  No `ConfigurationError` exists in the source.) -/
theorem C8_no_validation (thre : α) (hthre : 1 < thre) (nb : ℕ)
    (bs : List (Box α))
    (hwf : ∀ bx ∈ bs, bx.xmin < bx.xmax ∧ bx.ymin < bx.ymax) :
    nonMaxSuppress thre nb bs = bs := by
  induction nb with
  | zero => rfl
  | succ n ih => rw [nonMaxSuppress_succ, ih, nmsClass_id thre hthre n bs hwf]

/-- Witness for C8: an invalid `τ_nms = 2` flows through suppression
untouched. -/
theorem C8_no_validation_witness :
    nonMaxSuppress (2:ℚ) 1 [⟨0, 0, 1, 1, 1, [1]⟩] = [⟨0, 0, 1, 1, 1, [1]⟩] :=
  C8_no_validation 2 (by norm_num) 1 _ (by
    intro bx hbx
    rw [List.mem_singleton] at hbx
    subst hbx
    norm_num)

/-- Counterexample to claim C8 as stated: a decode call with the invalid
threshold `τ_nms = 2 ∉ [0,1]` does not fail — it completes every phase and
returns exactly the same box list as the same call with the valid
threshold `τ_nms = 3/10`, so no validation happens and no
`ConfigurationError` is raised. -/
theorem C8_counterexample :
    ¬ ((2:ℝ) ∈ Set.Icc (0:ℝ) 1) ∧
      decode_image Real.exp [[[[0,0,0,0,0,0]]]] [1,1] 1 4 4 ((3:ℝ)/10) 2 =
        [⟨0, 0, 4, 4, 1/2, [1/2]⟩] ∧
      decode_image Real.exp [[[[0,0,0,0,0,0]]]] [1,1] 1 4 4 ((3:ℝ)/10) (3/10) =
        [⟨0, 0, 4, 4, 1/2, [1/2]⟩] := by
  refine ⟨?_, eval_decode_z6 2, eval_decode_z6 (3/10)⟩
  rw [Set.mem_Icc]
  norm_num

/-! ## Claim C10: in-place mutation of the caller's tensor -/

lemma eval_decode_full_2z6 :
    decode_image_full Real.exp [[[[0,0,0,0,0,0], [0,0,0,0,0,0]]]] [1,1,1,1] 1 4 4
        ((3:ℝ)/10) (3/10) =
      ([⟨0, 0, 4, 4, 1/2, [1/2]⟩],
        [[[[(0:ℝ),0,0,0,1/2,0], [0,0,0,0,1/2,1/2]]]]) := by
  rw [decode_image_full, eval_activate_2z6]
  have hbt : buildTriples Real.exp [1,1,1,1] 4 4
      [[[[(0:ℝ),0,0,0,1/2,1/2], [0,0,0,0,1/2,1/2]]]] =
      [((0,0,0), ⟨0,0,4,4,1/2,[1/2]⟩), ((0,0,1), ⟨0,0,4,4,1/2,[1/2]⟩)] := by
    rw [buildTriples]
    norm_num [List.range_succ]
    rw [decodeTriple, decodeTriple]
    norm_num [truncInt, _sigmoid, Real.exp_zero]
  rw [hbt]
  have hnms : nonMaxSuppress ((3:ℝ)/10) 1
      [(⟨0,0,4,4,1/2,[1/2]⟩ : Box ℝ), ⟨0,0,4,4,1/2,[1/2]⟩] =
      [⟨0,0,4,4,1/2,[0]⟩, ⟨0,0,4,4,1/2,[1/2]⟩] := by
    norm_num [nonMaxSuppress, List.range_succ, nmsClass, sortedIndicesDesc, argsort,
      List.insertionSort, List.orderedInsert, nmsOuter, nmsInner, classAt, boxD,
      zeroClass, bbox_iou, intersectArea, unionArea, _interval_overlap]
  norm_num [hnms, writeBack, set3, get_score, get_label, List.range_succ]

/-- Counterexample to claim C10 as stated: the class channels of the
caller's array are NOT merely "the activated, thresholded values": the
suppression pass writes through the `classes` numpy views, so after a call
in which one of two identical candidates is suppressed, the suppressed
candidate's class channel holds `0` while its activated, thresholded value
is `1/2`. -/
theorem C10_counterexample :
    ((((decode_image_full Real.exp [[[[0,0,0,0,0,0], [0,0,0,0,0,0]]]] [1,1,1,1] 1 4 4
        ((3:ℝ)/10) (3/10)).2.getD 0 []).getD 0 []).getD 0 []).getD 5 0 = 0 ∧
      ((((activate Real.exp (-100) ((3:ℝ)/10)
          [[[[0,0,0,0,0,0], [0,0,0,0,0,0]]]]).getD 0 []).getD 0 []).getD 0
          []).getD 5 0 = 1/2 ∧
      (0:ℝ) ≠ 1/2 := by
  refine ⟨?_, ?_, by norm_num⟩
  · rw [eval_decode_full_2z6]
    norm_num
  · rw [eval_activate_2z6]
    norm_num

lemma sigmoid_half_gt : (3:ℝ)/10 < _sigmoid Real.exp (1/2) := by
  have he : Real.exp (-(1/2:ℝ)) < 1 := by
    rw [← Real.exp_zero]
    exact Real.exp_lt_exp.mpr (by norm_num)
  have h2 : (1:ℝ)/2 < _sigmoid Real.exp (1/2) := by
    unfold _sigmoid
    rw [div_lt_div_iff (by norm_num) (by positivity)]
    linarith
  linarith

lemma sigmoid_half_ne : _sigmoid Real.exp ((1:ℝ)/2) ≠ 1/2 := by
  unfold _sigmoid
  intro h
  rw [div_eq_div_iff (by positivity) (by norm_num)] at h
  have h1 : Real.exp (-(1/2:ℝ)) = 1 := by linarith
  rw [Real.exp_eq_one_iff] at h1
  norm_num at h1

lemma eval_decode_half :
    decode_image Real.exp [[[[0,0,0,0,(1:ℝ)/2,1/2]]]] [1,1] 1 4 4 ((3:ℝ)/10) (3/10) =
      [⟨0, 0, 4, 4, _sigmoid Real.exp (1/2), [_sigmoid Real.exp (1/2)]⟩] := by
  have hs2 := sigmoid_half_gt
  have hs2pos : 0 < _sigmoid Real.exp ((1:ℝ)/2) := lt_trans (by norm_num) hs2
  have hs2ne : ¬ (_sigmoid Real.exp ((1:ℝ)/2) = 0) := ne_of_gt hs2pos
  rw [decode_image, decode_image_full]
  have hact : activate Real.exp (-100) ((3:ℝ)/10) [[[[0,0,0,0,1/2,1/2]]]] =
      [[[[0,0,0,0,_sigmoid Real.exp (1/2), _sigmoid Real.exp (1/2)]]]] := by
    norm_num [activate, classEntries, stabilize, activateVec, listMax, listMin,
      Real.exp_zero, hs2]
  rw [hact]
  have hbt : buildTriples Real.exp [1,1] 4 4
      [[[[0,0,0,0,_sigmoid Real.exp ((1:ℝ)/2), _sigmoid Real.exp (1/2)]]]] =
      [((0,0,0), ⟨0,0,4,4,_sigmoid Real.exp (1/2),[_sigmoid Real.exp (1/2)]⟩)] := by
    rw [buildTriples]
    norm_num [List.range_succ, hs2pos]
    rw [decodeTriple]
    norm_num [truncInt, _sigmoid, Real.exp_zero]
  rw [hbt]
  norm_num [nonMaxSuppress, List.range_succ, nmsClass, sortedIndicesDesc, argsort,
    List.insertionSort, List.orderedInsert, nmsOuter, nmsInner, classAt, boxD,
    writeBack, set3, get_score, get_label, hs2, hs2ne]

/-- Amended claim C10: `batch_decode_yolo` mutates its input in place and
the mutation persists: channels 0-3 of every cell are left unchanged by
the activation pass and channel 4 is overwritten with the sigmoid of the
raw objectness (first conjunct, for any well-formed channel vector and any
stabiliser); the class channels hold the activated, thresholded values
FURTHER ZEROED by the per-class suppression, which writes through the
`classes` views into the caller's array (second conjunct); the mutation is
visible after the call (third and fourth conjuncts); and decoding the
mutated array again does not reproduce the result of decoding the original
once (fifth conjunct). -/
theorem C10_in_place_mutation :
    (∀ (vec : List ℝ) (stab : ℝ → ℝ) (thre : ℝ), 5 ≤ vec.length →
      (activateVec Real.exp stab thre vec).take 4 = vec.take 4 ∧
      (activateVec Real.exp stab thre vec).getD 4 0 =
        _sigmoid Real.exp (vec.getD 4 0)) ∧
    (decode_image_full Real.exp [[[[0,0,0,0,0,0], [0,0,0,0,0,0]]]] [1,1,1,1] 1 4 4
        ((3:ℝ)/10) (3/10)).2 = [[[[(0:ℝ),0,0,0,1/2,0], [0,0,0,0,1/2,1/2]]]] ∧
    (decode_image_full Real.exp [[[[0,0,0,0,0,0]]]] [1,1] 1 4 4 ((3:ℝ)/10) (3/10)).2 =
      [[[[(0:ℝ),0,0,0,1/2,1/2]]]] ∧
    (decode_image_full Real.exp [[[[0,0,0,0,0,0]]]] [1,1] 1 4 4
        ((3:ℝ)/10) (3/10)).2 ≠ [[[[(0:ℝ),0,0,0,0,0]]]] ∧
    decode_image Real.exp [[[[0,0,0,0,(1:ℝ)/2,1/2]]]] [1,1] 1 4 4 ((3:ℝ)/10) (3/10) ≠
      decode_image Real.exp [[[[0,0,0,0,0,0]]]] [1,1] 1 4 4 ((3:ℝ)/10) (3/10) := by
  refine ⟨?_, ?_, ?_, ?_, ?_⟩
  · intro vec stab thre hv
    have htake : (vec.take 4).length = 4 := by
      rw [List.length_take]
      omega
    constructor
    · show (vec.take 4 ++ _ :: _).take 4 = vec.take 4
      rw [List.take_append_eq_append_take, htake, List.take_take]
      norm_num
    · show (vec.take 4 ++ _ :: _).getD 4 0 = _
      rw [List.getD_eq_getElem?_getD,
        List.getElem?_append_right (by rw [htake] : (vec.take 4).length ≤ 4), htake]
      norm_num
  · rw [eval_decode_full_2z6]
  · rw [eval_decode_full_z6]
  · rw [eval_decode_full_z6]
    simp
  · rw [eval_decode_half, eval_decode_z6]
    simp only [ne_eq, List.cons.injEq, Box.mk.injEq, and_true, true_and, not_and]
    intro h
    exact absurd (by norm_num [h] : _sigmoid Real.exp ((1:ℝ)/2) = 1/2) sigmoid_half_ne

/-- Witness for C10's universally quantified frame conjunct at a concrete
vector. -/
theorem C10_in_place_mutation_witness :
    (activateVec Real.exp (fun x => x) ((3:ℝ)/10) [0,0,0,0,0,0]).take 4 =
        ([0,0,0,0] : List ℝ) ∧
      (activateVec Real.exp (fun x => x) ((3:ℝ)/10) [0,0,0,0,0,0]).getD 4 0 =
        _sigmoid Real.exp 0 := by
  have h := C10_in_place_mutation.1 [0,0,0,0,0,0] (fun x => x) (3/10) (by norm_num)
  refine ⟨h.1.trans (by norm_num), h.2.trans (by norm_num)⟩

end MaskYolo
